import Mathlib

/-!
Verification of the yacman2 repository (src/yacman2/yacman.py,
src/yacman2/alias.py): a file-backed YAML configuration manager with
advisory file locking.

The Python code is shallowly embedded:
* YAML values are the inductive type Val; Python dicts are insertion-ordered
  association lists with string keys (the patched loader coerces all keys to
  strings, modeled separately for the loader claims).
* The filesystem and the set of lock sentinel files form a World record;
  files store parsed YAML documents (the text codec is modeled separately
  for the round-trip claims).
* Stateful methods are functions CfgState → World → ... → OpResult that
  return the mutated object, the mutated world, and an optional raised
  exception, mirroring Python's in-place mutation (on an exception the
  partially mutated state is returned, as the Python object keeps the
  attribute assignments made before the raise).
* Schema validation (schema_source, validate_on_write, validate) is omitted
  from the embedding: no claim below exercises it, and the write() guard
  under scrutiny fires before any validation.
-/

namespace Yacman2

/-- A Python value as produced by loading YAML with the patched SafeLoader:
null, bool, int, string, list, or an insertion-ordered dict with string
keys. -/
inductive Val where
  | vnull : Val
  | vbool : Bool → Val
  | vint : Int → Val
  | vstr : String → Val
  | vlist : List Val → Val
  | vmap : List (String × Val) → Val

/-- An insertion-ordered Python dict with string keys. -/
abbrev Dict := List (String × Val)

/-- Lookup in an insertion-ordered dict (Python d[k] / d.get(k)). -/
def alookup {α : Type} : List (String × α) → String → Option α
  | [], _ => none
  | (k1, v) :: rest, k => if k1 = k then some v else alookup rest k

/-- Assignment d[k] = v in an insertion-ordered dict: replaces in place if
the key is present, else appends at the end (Python dict semantics). -/
def aset {α : Type} : List (String × α) → String → α → List (String × α)
  | [], k, v => [(k, v)]
  | (k1, v1) :: rest, k, v =>
      if k1 = k then (k, v) :: rest else (k1, v1) :: aset rest k v

/-- Shallow d.update(e): assign every entry of e into d, in order. -/
def aupdate {α : Type} (d : List (String × α)) (e : List (String × α)) :
    List (String × α) :=
  e.foldl (fun acc kv => aset acc kv.1 kv.2) d

/-- Embedding of deep_update (yacman.py): recursively update nested dict
old with new, modifying old in place.  For each key of new, if new's value
is a non-empty Mapping the code recurses into old.get(key, {}); this raises
AttributeError when old holds a non-dict value there (a non-dict has no
.get), which the Bool component records (false = an exception escaped).
The Dict component is the partially mutated old, because Python mutates old
in place entry by entry: when the recursion into an existing sub-dict dies
midway, old already aliases the half-updated sub-dict. -/
def deep_update : Dict → List (String × Val) → Dict × Bool
  | old, [] => (old, true)
  | old, (k, v) :: rest =>
    match v with
    | Val.vmap m =>
      if m.isEmpty then deep_update (aset old k v) rest
      else
        match alookup old k with
        | some (Val.vmap om) =>
          let r := deep_update om m
          if r.2 then deep_update (aset old k (Val.vmap r.1)) rest
          else (aset old k (Val.vmap r.1), false)
        | some _ => (old, false)
        | none =>
          let r := deep_update [] m
          if r.2 then deep_update (aset old k (Val.vmap r.1)) rest
          else (old, false)
    | _ => deep_update (aset old k v) rest
  termination_by old new => sizeOf new
  decreasing_by all_goals (simp_wf; try omega)

/-- Exceptions relevant to the embedded operations.  fileNotFound and
writeDenied are OSError subclasses in Python; the ubiquerg lock-wait
timeout is a RuntimeError; typeErr is TypeError. -/
inductive Err where
  | fileNotFound : Err
  | lockTimeout : Err
  | typeErr : Err
  | writeDenied : Err
  | keyErr : Err
  deriving DecidableEq

/-- Whether the exception is an OSError (caught by make_writable's
`except OSError` clause). -/
def isOSError : Err → Bool
  | Err.fileNotFound => true
  | Err.writeDenied => true
  | Err.lockTimeout => false
  | Err.typeErr => false
  | Err.keyErr => false

/-- The filesystem: files (mapped to their parsed YAML document; an empty
file is the empty document) and the set of existing lock sentinel files. -/
structure World where
  fs : List (String × Dict)
  locks : List String

/-- Lock path derivation (ubiquerg make_lock_path): the basename is prefixed
with the literal "lock.".  Paths are modeled as opaque strings, so the
prefix is applied to the whole path; the derivation stays pure and
injective. -/
def make_lock_path (p : String) : String := "lock." ++ p

/-- Whether a file exists (os.path.exists on a data file). -/
def file_exists (w : World) (p : String) : Bool := (alookup w.fs p).isSome

/-- Load a YAML file into a dict (load_yaml): files hold parsed documents
in this model, so loading is filesystem lookup. -/
def load_yaml (w : World) (p : String) : Option Dict := alookup w.fs p

/-- Embedding of ubiquerg create_lock: if the lock sentinel for the path
already exists, the single-process model can only poll until the wait_max
timeout and raise (RuntimeError); otherwise the sentinel is created. -/
def create_lock (w : World) (p : String) : Except Err World :=
  if make_lock_path p ∈ w.locks then Except.error Err.lockTimeout
  else Except.ok { w with locks := make_lock_path p :: w.locks }

/-- Embedding of ubiquerg remove_lock: remove the sentinel if present;
report whether one was removed. -/
def remove_lock (w : World) (p : String) : World × Bool :=
  if make_lock_path p ∈ w.locks then
    ({ w with locks := w.locks.erase (make_lock_path p) }, true)
  else (w, false)

/-- The mutable attributes of a YAMLConfigManager object that the claims
exercise.  data is the in-memory mapping; filepath is None for memory-only
objects; writable tracks lock ownership; already_writable is the context
manager scratch flag. -/
structure CfgState where
  data : Dict
  filepath : Option String
  wait_max : Nat
  skip_read_lock : Bool
  writable : Bool
  already_writable : Bool

/-- Result of a stateful operation: the mutated object, the mutated world,
the exception that escaped (if any), and the Python return value for the
Bool-returning methods. -/
structure OpResult where
  st : CfgState
  w : World
  err : Option Err
  ret : Bool

/-- Python truthiness of an optional string (None and the empty string are
falsy). -/
def otruthy : Option String → Bool
  | none => false
  | some s => s ≠ ""

/-- Python truthiness of an optional dict (None and the empty dict are
falsy). -/
def dtruthy : Option Dict → Bool
  | none => false
  | some d => !d.isEmpty

/-- Embedding of _check_filepath: returns the filepath if it is a string,
else raises TypeError (the None case is the one reachable here). -/
def check_filepath : Option String → Except Err String
  | some f => Except.ok f
  | none => Except.error Err.typeErr

/-- Default wait_max (yacman.py DEFAULT_WAIT_TIME). -/
def DEFAULT_WAIT_TIME : Nat := 60

/-- Embedding of YAMLConfigManager.__init__ (schema arguments omitted, see
the header).  The attribute assignments are performed in source order on
the object st being (re)initialized; when an exception is raised the
partially updated object is returned together with the exception, because
the assignments made before the raise stick.  yamldata is passed already
parsed (yaml.load is the external parser). -/
def init_self (st : CfgState) (w : World) (entries : Option Dict)
    (filepath : Option String) (yamldata : Option Dict) (writable : Bool)
    (wait_max : Nat) (skip_read_lock : Bool) (create_file : Bool) :
    OpResult :=
  let st1 : CfgState :=
    { data := st.data
      filepath := if otruthy filepath then filepath else none
      wait_max := wait_max
      skip_read_lock := skip_read_lock
      writable := writable
      already_writable := writable }
  match (if st1.writable then
          (if otruthy filepath then
            match create_lock w (filepath.getD "") with
            | Except.ok w1 => Except.ok (st1, w1, writable)
            | Except.error e => Except.error (OpResult.mk st1 w (some e) false)
           else
            Except.ok ({ st1 with writable := false }, w, false))
         else Except.ok (st1, w, writable)) with
  | Except.error r => r
  | Except.ok (st2, w2, writableLocal) =>
    if otruthy filepath then
      let fp := filepath.getD ""
      match (if !skip_read_lock && !writableLocal && file_exists w2 fp then
              match create_lock w2 fp with
              | Except.error e => Except.error (OpResult.mk st2 w2 (some e) false)
              | Except.ok w3 =>
                let contents := (load_yaml w3 fp).getD []
                Except.ok (contents, (remove_lock w3 fp).1)
             else if file_exists w2 fp then
              Except.ok ((load_yaml w2 fp).getD [], w2)
             else if create_file then
              Except.ok (([] : Dict), { w2 with fs := aset w2.fs fp [] })
             else
              Except.error (OpResult.mk st2 w2 (some Err.fileNotFound) false)) with
      | Except.error r => r
      | Except.ok (contents, w4) =>
        let contents2 :=
          if dtruthy entries then aupdate contents (entries.getD []) else contents
        OpResult.mk { st2 with data := contents2 } w4 none true
    else if dtruthy yamldata then
      OpResult.mk { st2 with data := yamldata.getD [] } w2 none true
    else
      OpResult.mk { st2 with data := (entries.getD []) } w2 none true

/-- A freshly allocated object before __init__ runs (no attribute set yet;
data defaults to the empty dict for modeling purposes, matching an object
on which __init__ raised before reaching the data assignment). -/
def blank : CfgState :=
  { data := []
    filepath := none
    wait_max := DEFAULT_WAIT_TIME
    skip_read_lock := false
    writable := false
    already_writable := false }

/-- Embedding of YAMLConfigManager._reinit: reload the object from file
via __init__ (with skip_read_lock=True and all other arguments at their
defaults), then deep_update the freshly loaded data with the previous
in-memory data. -/
def reinit (st : CfgState) (w : World) (filepath : Option String) :
    OpResult :=
  let fp := if otruthy filepath then filepath else st.filepath
  match fp with
  | none => OpResult.mk st w none true
  | some f =>
    let local_data := st.data
    let r := init_self st w none (some f) none false DEFAULT_WAIT_TIME true false
    match r.err with
    | some _ => r
    | none =>
      let m := deep_update r.st.data local_data
      OpResult.mk { r.st with data := m.1 } r.w
        (if m.2 then none else some Err.typeErr) m.2

/-- Modelled from the spec: the public rebase() method, which "reloads
on-disk content and deep-merges it underneath current in-memory data", is
not among the provided source files -- only the test suite calls it.  The
claim's own code citations name YAMLConfigManager._reinit (reload the
file, then deep_update the fresh contents with the previous in-memory
data) as its implementation, and the source provides _reinit; rebase
delegates to it. -/
def rebase (st : CfgState) (w : World) (filepath : Option String) :
    OpResult :=
  reinit st w filepath

/-- Embedding of YAMLConfigManager.make_readonly: clear the writable flag,
then remove the lock sentinel for the current filepath (raising TypeError
from _check_filepath when the filepath is None); returns whether a lock
was removed. -/
def make_readonly (st : CfgState) (w : World) : OpResult :=
  let st1 := { st with writable := false }
  match check_filepath st1.filepath with
  | Except.error e => OpResult.mk st1 w (some e) false
  | Except.ok f =>
    let p := remove_lock w f
    OpResult.mk st1 p.1 none p.2

/-- The try/except reload block of YAMLConfigManager.make_writable
followed by the final writable-flag assignment: _reinit at the current
filepath, with OSError swallowed and any other exception triggering one
plain _reinit retry whose exception propagates. -/
def make_writable_reload (st : CfgState) (w : World) (f : String) :
    OpResult :=
  let r := reinit st w (some f)
  match r.err with
  | none => OpResult.mk { r.st with writable := true } r.w none true
  | some e =>
    if isOSError e then
      OpResult.mk { r.st with writable := true } r.w none true
    else
      let r2 := reinit r.st r.w none
      match r2.err with
      | none => OpResult.mk { r2.st with writable := true } r2.w none true
      | some e2 => OpResult.mk r2.st r2.w (some e2) false

/-- Embedding of YAMLConfigManager.make_writable: optionally reset the
filepath, no-op if already writable, else acquire the lock and reload
(make_writable_reload above), then set the writable flag. -/
def make_writable (st : CfgState) (w : World) (filepath : Option String) :
    OpResult :=
  let st1 :=
    match filepath with
    | some f =>
      if f ≠ "" ∧ some f ≠ st.filepath then { st with filepath := some f }
      else st
    | none => st
  if st1.writable then OpResult.mk st1 w none true
  else
    match check_filepath st1.filepath with
    | Except.error e => OpResult.mk st1 w (some e) false
    | Except.ok f =>
      match create_lock w f with
      | Except.error e => OpResult.mk st1 w (some e) false
      | Except.ok w1 => make_writable_reload st1 w1 f

/-- Embedding of YAMLConfigManager.__enter__: remember whether the object
was already writable, then make_writable (whose exceptions propagate, so
the scope is not entered on failure). -/
def enter_cm (st : CfgState) (w : World) : OpResult :=
  let st1 := if st.writable then { st with already_writable := true } else st
  make_writable st1 w none

/-- Embedding of YAMLConfigManager.__exit__: if the object was already
writable on scope entry leave the lock held, else make_readonly.  The ret
component is the context manager suppress flag, which is always False, so
exceptions raised by the scope body always propagate. -/
def exit_cm (st : CfgState) (w : World) : OpResult :=
  if st.already_writable then
    OpResult.mk { st with writable := true, already_writable := true } w
      none false
  else
    let r := make_readonly st w
    OpResult.mk r.st r.w r.err false

/-- Embedding of YAMLConfigManager.write (schema validation omitted, see
the header; the guard under scrutiny fires before validation).  Returns
the mutated world and either the written path or the raised exception;
the object itself is never mutated by write. -/
def write_op (st : CfgState) (w : World) (filepath : Option String) :
    World × Except Err String :=
  if otruthy filepath then
    let f := filepath.getD ""
    let lock := make_lock_path f
    if file_exists w f ∧ lock ∈ w.locks then
      (w, Except.error Err.writeDenied)
    else
      match create_lock w f with
      | Except.error e => (w, Except.error e)
      | Except.ok w1 =>
        let w2 := { w1 with fs := aset w1.fs f st.data }
        ((remove_lock w2 f).1, Except.ok f)
  else
    if !st.writable then (w, Except.error Err.writeDenied)
    else
      match check_filepath st.filepath with
      | Except.error e => (w, Except.error e)
      | Except.ok f =>
        ({ w with fs := aset w.fs f st.data }, Except.ok f)

/-- Construction of a fresh YAMLConfigManager object (a blank object fed
through __init__). -/
def construct (w : World) (entries : Option Dict) (filepath : Option String)
    (yamldata : Option Dict) (writable : Bool) (wait_max : Nat)
    (skip_read_lock : Bool) (create_file : Bool) : OpResult :=
  init_self blank w entries filepath yamldata writable wait_max
    skip_read_lock create_file

/-- Whether a value is a Mapping (Python isinstance(value, Mapping)). -/
def is_map : Val → Bool
  | Val.vmap _ => true
  | _ => false

/-- Whether a value is a non-empty Mapping (the deep_update recursion
guard isinstance(value, Mapping) and value). -/
def is_nonempty_map : Val → Bool
  | Val.vmap m => !m.isEmpty
  | _ => false

/-- Distinctness of the keys of an association list; Python dicts always
satisfy this. -/
abbrev nodup_keys {α : Type} (l : List (String × α)) : Prop :=
  (l.map Prod.fst).Nodup

theorem alookup_aset_self {α : Type} (d : List (String × α)) (k : String)
    (v : α) : alookup (aset d k v) k = some v := by
  induction d with
  | nil => simp [aset, alookup]
  | cons hd tl ih =>
    obtain ⟨k1, v1⟩ := hd
    by_cases h : k1 = k
    · simp [aset, h, alookup]
    · simp [aset, h, alookup, ih]

theorem alookup_aset_ne {α : Type} (d : List (String × α)) (k k' : String)
    (v : α) (h : k' ≠ k) : alookup (aset d k v) k' = alookup d k' := by
  induction d with
  | nil => simp [aset, alookup, Ne.symm h]
  | cons hd tl ih =>
    obtain ⟨k1, v1⟩ := hd
    by_cases h1 : k1 = k
    · subst h1
      simp [aset, alookup, Ne.symm h]
    · simp [aset, h1, alookup, ih]

theorem deep_update_nil (old : Dict) : deep_update old [] = (old, true) := by
  simp [deep_update]

/-- Step equation: a new value that is not a non-empty mapping simply
replaces the old one. -/
theorem deep_update_cons_flat (old : Dict) (k : String) (v : Val)
    (tl : List (String × Val)) (h : is_nonempty_map v = false) :
    deep_update old ((k, v) :: tl) = deep_update (aset old k v) tl := by
  cases v with
  | vmap m =>
    have hm : m.isEmpty = true := by
      simpa [is_nonempty_map] using h
    rw [deep_update, if_pos hm]
  | vnull => rw [deep_update]; intro m hx; cases hx
  | vbool b => rw [deep_update]; intro m hx; cases hx
  | vint n => rw [deep_update]; intro m hx; cases hx
  | vstr s => rw [deep_update]; intro m hx; cases hx
  | vlist xs => rw [deep_update]; intro m hx; cases hx

/-- Step equation: a non-empty mapping on the new side recurses into an
old mapping value. -/
theorem deep_update_cons_map (old : Dict) (k : String)
    (m om : List (String × Val)) (tl : List (String × Val))
    (hm : m.isEmpty = false) (hold : alookup old k = some (Val.vmap om)) :
    deep_update old ((k, Val.vmap m) :: tl) =
      (if (deep_update om m).2 then
        deep_update (aset old k (Val.vmap (deep_update om m).1)) tl
       else (aset old k (Val.vmap (deep_update om m).1), false)) := by
  rw [deep_update, if_neg (by simp [hm]), hold]

/-- Step equation: a non-empty mapping on the new side over a non-mapping
old value raises (the non-mapping has no .get / item assignment). -/
theorem deep_update_cons_clash (old : Dict) (k : String)
    (m : List (String × Val)) (tl : List (String × Val)) (v0 : Val)
    (hm : m.isEmpty = false) (hold : alookup old k = some v0)
    (hv0 : is_map v0 = false) :
    deep_update old ((k, Val.vmap m) :: tl) = (old, false) := by
  rw [deep_update, if_neg (by simp [hm]), hold]
  cases v0 with
  | vmap om => simp [is_map] at hv0
  | vnull => rfl
  | vbool b => rfl
  | vint n => rfl
  | vstr s => rfl
  | vlist xs => rfl

/-- Step equation: a non-empty mapping on the new side over an absent old
key recurses into a fresh empty dict. -/
theorem deep_update_cons_new (old : Dict) (k : String)
    (m : List (String × Val)) (tl : List (String × Val))
    (hm : m.isEmpty = false) (hold : alookup old k = none) :
    deep_update old ((k, Val.vmap m) :: tl) =
      (if (deep_update [] m).2 then
        deep_update (aset old k (Val.vmap (deep_update [] m).1)) tl
       else (old, false)) := by
  rw [deep_update, if_neg (by simp [hm]), hold]

/-- Keys absent from new are untouched by deep_update. -/
theorem deep_update_absent (new : List (String × Val)) : ∀ (old : Dict)
    (k : String), (deep_update old new).2 = true → alookup new k = none →
    alookup (deep_update old new).1 k = alookup old k := by
  induction new with
  | nil => intro old k _ _; simp [deep_update]
  | cons hd tl ih =>
    intro old k hok habs
    obtain ⟨k1, v⟩ := hd
    have hne : k1 ≠ k := by
      intro h; subst h; simp [alookup] at habs
    have habs2 : alookup tl k = none := by
      simpa [alookup, hne] using habs
    by_cases hflat : is_nonempty_map v = false
    · rw [deep_update_cons_flat _ _ _ _ hflat] at hok ⊢
      rw [ih _ k hok habs2, alookup_aset_ne _ _ _ _ (Ne.symm hne)]
    · obtain ⟨m, rfl, hm⟩ : ∃ m, v = Val.vmap m ∧ m.isEmpty = false := by
        cases v <;> simp [is_nonempty_map] at hflat ⊢
        simpa using hflat
      cases hold : alookup old k1 with
      | some v0 =>
        by_cases hv0 : is_map v0 = false
        · rw [deep_update_cons_clash _ _ _ _ _ hm hold hv0] at hok
          simp at hok
        · obtain ⟨om, rfl⟩ : ∃ om, v0 = Val.vmap om := by
            cases v0 <;> simp [is_map] at hv0 ⊢
          rw [deep_update_cons_map _ _ _ _ _ hm hold] at hok ⊢
          by_cases hr : (deep_update om m).2
          · rw [if_pos hr] at hok ⊢
            rw [ih _ k hok habs2, alookup_aset_ne _ _ _ _ (Ne.symm hne)]
          · rw [if_neg hr] at hok; simp at hok
      | none =>
        rw [deep_update_cons_new _ _ _ _ hm hold] at hok ⊢
        by_cases hr : (deep_update [] m).2
        · rw [if_pos hr] at hok ⊢
          rw [ih _ k hok habs2, alookup_aset_ne _ _ _ _ (Ne.symm hne)]
        · rw [if_neg hr] at hok; simp at hok

theorem alookup_eq_none_of_not_mem {α : Type} (l : List (String × α))
    (k : String) (h : k ∉ l.map Prod.fst) : alookup l k = none := by
  induction l with
  | nil => rfl
  | cons hd tl ih =>
    obtain ⟨k1, v1⟩ := hd
    have h1 : k ≠ k1 := fun he => h (List.mem_cons.mpr (Or.inl he))
    have h2 : k ∉ tl.map Prod.fst :=
      fun hm => h (List.mem_cons.mpr (Or.inr hm))
    simp only [alookup]
    rw [if_neg (Ne.symm h1)]
    exact ih h2

/-- Generic head-step reasoning: processing one entry of new either fails
or continues with the tail over an updated old whose other keys are
untouched.  Stated as the induction workhorse for the present-key
lemmas. -/
theorem deep_update_present_flat (new : List (String × Val)) :
    ∀ (old : Dict) (k : String) (v : Val), nodup_keys new →
    (deep_update old new).2 = true → alookup new k = some v →
    is_nonempty_map v = false →
    alookup (deep_update old new).1 k = some v := by
  induction new with
  | nil => intro old k v _ _ hk _; simp [alookup] at hk
  | cons hd tl ih =>
    intro old k v hnd hok hk hv
    obtain ⟨k1, v1⟩ := hd
    have hnd0 : (k1 :: tl.map Prod.fst).Nodup := hnd
    have hnd2 : nodup_keys tl := (List.nodup_cons.mp hnd0).2
    by_cases hkk : k1 = k
    · subst hkk
      have hv1 : v1 = v := by simpa [alookup] using hk
      subst hv1
      have htl : alookup tl k1 = none :=
        alookup_eq_none_of_not_mem _ _ (List.nodup_cons.mp hnd0).1
      rw [deep_update_cons_flat _ _ _ _ hv] at hok ⊢
      rw [deep_update_absent _ _ _ hok htl, alookup_aset_self]
    · have hk2 : alookup tl k = some v := by
        simpa [alookup, hkk] using hk
      by_cases hflat : is_nonempty_map v1 = false
      · rw [deep_update_cons_flat _ _ _ _ hflat] at hok ⊢
        exact ih _ _ _ hnd2 hok hk2 hv
      · obtain ⟨m, rfl, hm⟩ : ∃ m, v1 = Val.vmap m ∧ m.isEmpty = false := by
          cases v1 <;> simp [is_nonempty_map] at hflat ⊢
          simpa using hflat
        cases hold : alookup old k1 with
        | some v0 =>
          by_cases hv0 : is_map v0 = false
          · rw [deep_update_cons_clash _ _ _ _ _ hm hold hv0] at hok
            simp at hok
          · obtain ⟨om, rfl⟩ : ∃ om, v0 = Val.vmap om := by
              cases v0 <;> simp [is_map] at hv0 ⊢
            rw [deep_update_cons_map _ _ _ _ _ hm hold] at hok ⊢
            by_cases hr : (deep_update om m).2
            · rw [if_pos hr] at hok ⊢
              exact ih _ _ _ hnd2 hok hk2 hv
            · rw [if_neg hr] at hok; simp at hok
        | none =>
          rw [deep_update_cons_new _ _ _ _ hm hold] at hok ⊢
          by_cases hr : (deep_update [] m).2
          · rw [if_pos hr] at hok ⊢
            exact ih _ _ _ hnd2 hok hk2 hv
          · rw [if_neg hr] at hok; simp at hok

/-- When both sides hold a non-empty mapping at a key, the merged result
at that key is the recursive deep_update of the two. -/
theorem deep_update_present_map (new : List (String × Val)) :
    ∀ (old : Dict) (k : String) (m om : List (String × Val)),
    nodup_keys new → (deep_update old new).2 = true →
    alookup new k = some (Val.vmap m) → m.isEmpty = false →
    alookup old k = some (Val.vmap om) →
    alookup (deep_update old new).1 k =
      some (Val.vmap (deep_update om m).1) := by
  induction new with
  | nil => intro old k m om _ _ hk _ _; simp [alookup] at hk
  | cons hd tl ih =>
    intro old k m om hnd hok hk hm hold
    obtain ⟨k1, v1⟩ := hd
    have hnd0 : (k1 :: tl.map Prod.fst).Nodup := hnd
    have hnd2 : nodup_keys tl := (List.nodup_cons.mp hnd0).2
    by_cases hkk : k1 = k
    · subst hkk
      have hv1 : v1 = Val.vmap m := by simpa [alookup] using hk
      subst hv1
      have htl : alookup tl k1 = none :=
        alookup_eq_none_of_not_mem _ _ (List.nodup_cons.mp hnd0).1
      rw [deep_update_cons_map _ _ _ _ _ hm hold] at hok ⊢
      by_cases hr : (deep_update om m).2
      · rw [if_pos hr] at hok ⊢
        rw [deep_update_absent _ _ _ hok htl, alookup_aset_self]
      · rw [if_neg hr] at hok; simp at hok
    · have hk2 : alookup tl k = some (Val.vmap m) := by
        simpa [alookup, hkk] using hk
      by_cases hflat : is_nonempty_map v1 = false
      · rw [deep_update_cons_flat _ _ _ _ hflat] at hok ⊢
        refine ih _ _ _ _ hnd2 hok hk2 hm ?_
        rw [alookup_aset_ne _ _ _ _ (Ne.symm hkk)]; exact hold
      · obtain ⟨m1, rfl, hm1⟩ : ∃ m1, v1 = Val.vmap m1 ∧ m1.isEmpty = false := by
          cases v1 <;> simp [is_nonempty_map] at hflat ⊢
          simpa using hflat
        cases hold1 : alookup old k1 with
        | some v0 =>
          by_cases hv0 : is_map v0 = false
          · rw [deep_update_cons_clash _ _ _ _ _ hm1 hold1 hv0] at hok
            simp at hok
          · obtain ⟨om1, rfl⟩ : ∃ om1, v0 = Val.vmap om1 := by
              cases v0 <;> simp [is_map] at hv0 ⊢
            rw [deep_update_cons_map _ _ _ _ _ hm1 hold1] at hok ⊢
            by_cases hr : (deep_update om1 m1).2
            · rw [if_pos hr] at hok ⊢
              refine ih _ _ _ _ hnd2 hok hk2 hm ?_
              rw [alookup_aset_ne _ _ _ _ (Ne.symm hkk)]; exact hold
            · rw [if_neg hr] at hok; simp at hok
        | none =>
          rw [deep_update_cons_new _ _ _ _ hm1 hold1] at hok ⊢
          by_cases hr : (deep_update [] m1).2
          · rw [if_pos hr] at hok ⊢
            refine ih _ _ _ _ hnd2 hok hk2 hm ?_
            rw [alookup_aset_ne _ _ _ _ (Ne.symm hkk)]; exact hold
          · rw [if_neg hr] at hok; simp at hok

/-- Claim C8: the claim states that whenever old's value at a key is not a
non-empty mapping alongside new's non-empty mapping, new's value replaces
old's and the merge completes successfully -- in particular a scalar under
a non-empty mapping.  On the code this input instead raises
(AttributeError: an int has no .get), recorded as the false flag, and old
keeps its scalar. -/
theorem claim_C8_counterexample :
    deep_update [("k", Val.vint 5)] [("k", Val.vmap [("x", Val.vint 1)])] =
      ([("k", Val.vint 5)], false) :=
  deep_update_cons_clash _ _ _ _ (Val.vint 5) rfl rfl rfl

/-- Claim C8 (amended): for every key of new, if new's value there is a
non-empty mapping and old's value is a non-mapping the merge raises;
if new's value is a non-empty mapping and old also holds a mapping there,
the merged value is the recursive deep_update of the two; if new's value
is not a non-empty mapping it replaces old's value; keys absent from new
are untouched. -/
theorem claim_C8_deep_update :
    (∀ (old : Dict) (k : String) (m tl : List (String × Val)) (v0 : Val),
       m.isEmpty = false → alookup old k = some v0 → is_map v0 = false →
       deep_update old ((k, Val.vmap m) :: tl) = (old, false)) ∧
    (∀ (old : Dict) (new : List (String × Val)) (k : String) (v : Val),
       nodup_keys new → (deep_update old new).2 = true →
       alookup new k = some v → is_nonempty_map v = false →
       alookup (deep_update old new).1 k = some v) ∧
    (∀ (old : Dict) (new : List (String × Val)) (k : String)
       (m om : List (String × Val)), nodup_keys new →
       (deep_update old new).2 = true →
       alookup new k = some (Val.vmap m) → m.isEmpty = false →
       alookup old k = some (Val.vmap om) →
       alookup (deep_update old new).1 k =
         some (Val.vmap (deep_update om m).1)) ∧
    (∀ (old : Dict) (new : List (String × Val)) (k : String),
       (deep_update old new).2 = true → alookup new k = none →
       alookup (deep_update old new).1 k = alookup old k) :=
  ⟨fun old k m tl v0 hm hold hv0 =>
     deep_update_cons_clash old k m tl v0 hm hold hv0,
   fun old new k v hnd hok hk hv =>
     deep_update_present_flat new old k v hnd hok hk hv,
   fun old new k m om hnd hok hk hm hold =>
     deep_update_present_map new old k m om hnd hok hk hm hold,
   fun old new k hok habs => deep_update_absent new old k hok habs⟩

/-- Witness for claim C8's amended theorem at concrete inputs. -/
theorem claim_C8_deep_update_witness :
    deep_update [("k", Val.vint 5)] [("k", Val.vmap [("x", Val.vint 1)])] =
      ([("k", Val.vint 5)], false) ∧
    alookup (deep_update [("a", Val.vint 1)] [("a", Val.vint 2)]).1 "a" =
      some (Val.vint 2) ∧
    alookup (deep_update [("a", Val.vmap [("x", Val.vint 1)])]
        [("a", Val.vmap [("y", Val.vint 2)])]).1 "a" =
      some (Val.vmap
        (deep_update [("x", Val.vint 1)] [("y", Val.vint 2)]).1) ∧
    alookup (deep_update [("b", Val.vint 7)] [("a", Val.vint 2)]).1 "b" =
      some (Val.vint 7) := by
  refine ⟨claim_C8_deep_update.1 _ "k" _ [] (Val.vint 5) rfl rfl rfl,
    claim_C8_deep_update.2.1 _ _ "a" (Val.vint 2) (by decide) ?_ rfl rfl,
    claim_C8_deep_update.2.2.1 _ _ "a" [("y", Val.vint 2)]
      [("x", Val.vint 1)] (by decide) ?_ rfl rfl rfl,
    claim_C8_deep_update.2.2.2 _ _ "b" ?_ rfl⟩
  · simp [deep_update, aset]
  · simp [deep_update, aset, alookup]
  · simp [deep_update, aset]

/-- Claim C4: calling write() with no explicit path on a non-writable
file-backed object raises the WriteDenied OSError before any file is
opened for writing, and the world (files and locks) is returned
unmodified. -/
theorem claim_C4_write_denied (st : CfgState) (w : World) (fp : String)
    (hfb : st.filepath = some fp) (hro : st.writable = false) :
    write_op st w none = (w, Except.error Err.writeDenied) := by
  simp [write_op, otruthy, hro]

/-- Witness for claim C4's theorem at concrete inputs. -/
theorem claim_C4_write_denied_witness :
    write_op
      { data := [("a", Val.vint 1)], filepath := some "c",
        wait_max := 60, skip_read_lock := false, writable := false,
        already_writable := false }
      { fs := [("c", [("a", Val.vint 1)])], locks := [] } none =
    ({ fs := [("c", [("a", Val.vint 1)])], locks := [] },
      Except.error Err.writeDenied) :=
  claim_C4_write_denied _ _ "c" rfl rfl

/-- Claim C1: a read-only file-backed object holding the uncommitted local
edit k := n, over a disk document mapping k to a different value and a
fresh key b, reloads on make_writable: the lock is acquired, the file
reloaded, the local edit wins at k and the external key b is picked up
from disk. -/
theorem claim_C1_make_writable_merge (st : CfgState) (w : World)
    (fp k b : String) (n dk db : Int)
    (hfp : st.filepath = some fp) (hne : fp ≠ "")
    (hro : st.writable = false)
    (hdata : st.data = [(k, Val.vint n)])
    (hdisk : alookup w.fs fp = some [(k, Val.vint dk), (b, Val.vint db)])
    (hkb : k ≠ b) (hdiff : dk ≠ n)
    (hlock : make_lock_path fp ∉ w.locks) :
    (make_writable st w none).err = none ∧
    (make_writable st w none).st.data =
      [(k, Val.vint n), (b, Val.vint db)] ∧
    (make_writable st w none).st.writable = true ∧
    make_lock_path fp ∈ (make_writable st w none).w.locks := by
  have hmerge : deep_update [(k, Val.vint dk), (b, Val.vint db)]
      [(k, Val.vint n)] = ([(k, Val.vint n), (b, Val.vint db)], true) := by
    rw [deep_update_cons_flat [(k, Val.vint dk), (b, Val.vint db)] k
      (Val.vint n) [] rfl, deep_update_nil]
    simp [aset]
  simp [make_writable, make_writable_reload, check_filepath, create_lock,
    reinit, init_self, otruthy, dtruthy, file_exists, load_yaml, hfp, hro,
    hdata, hdisk, hne, hlock, hmerge]

/-- Witness for claim C1's theorem at concrete inputs. -/
theorem claim_C1_make_writable_merge_witness :
    ((make_writable
      { data := [("a", Val.vint 99)], filepath := some "c",
        wait_max := 60, skip_read_lock := false, writable := false,
        already_writable := false }
      { fs := [("c", [("a", Val.vint 1), ("b", Val.vint 2)])],
        locks := [] } none).err = none ∧
    (make_writable
      { data := [("a", Val.vint 99)], filepath := some "c",
        wait_max := 60, skip_read_lock := false, writable := false,
        already_writable := false }
      { fs := [("c", [("a", Val.vint 1), ("b", Val.vint 2)])],
        locks := [] } none).st.data =
      [("a", Val.vint 99), ("b", Val.vint 2)] ∧
    (make_writable
      { data := [("a", Val.vint 99)], filepath := some "c",
        wait_max := 60, skip_read_lock := false, writable := false,
        already_writable := false }
      { fs := [("c", [("a", Val.vint 1), ("b", Val.vint 2)])],
        locks := [] } none).st.writable = true ∧
    make_lock_path "c" ∈ (make_writable
      { data := [("a", Val.vint 99)], filepath := some "c",
        wait_max := 60, skip_read_lock := false, writable := false,
        already_writable := false }
      { fs := [("c", [("a", Val.vint 1), ("b", Val.vint 2)])],
        locks := [] } none).w.locks) :=
  claim_C1_make_writable_merge _ _ "c" "a" "b" 99 1 2 rfl (by decide) rfl
    rfl rfl (by decide) (by decide) (by decide)

/-- Claim C5: the claim states rebase() leaves the object's lock state --
writable flag and lock sentinel -- unchanged.  On the code the reload path
re-runs __init__ with the default writable=False, so a writable object
comes out of rebase with writable reset to false (the sentinel stays on
disk), refuting the claim at this input. -/
theorem claim_C5_counterexample :
    (let st : CfgState :=
      { data := [("a", Val.vint 5)], filepath := some "c",
        wait_max := 60, skip_read_lock := false, writable := true,
        already_writable := true }
     let w : World :=
      { fs := [("c", [("a", Val.vint 1)])], locks := ["lock.c"] }
     let r := rebase st w none
     st.writable = true ∧ r.err = none ∧ r.st.writable = false) := by
  refine ⟨rfl, ?_, ?_⟩ <;>
    simp [rebase, reinit, init_self, otruthy, dtruthy, file_exists,
      load_yaml, alookup, aset, deep_update, DEFAULT_WAIT_TIME]

/-- Claim C5 (amended): rebase() reloads the on-disk document and
deep-merges it underneath the in-memory data -- the local value wins at
every key present locally (and not a non-empty mapping), the on-disk value
wins at every key absent locally -- and the world (lock sentinels and
files) is unchanged; however the in-memory writable flag is reset to
false, because the reload path re-runs __init__ with its defaults. -/
theorem claim_C5_rebase (st : CfgState) (w : World) (fp : String)
    (disk : Dict) (hfp : st.filepath = some fp) (hne : fp ≠ "")
    (hdisk : alookup w.fs fp = some disk) (hnd : nodup_keys st.data)
    (hm : (deep_update disk st.data).2 = true) :
    (rebase st w none).err = none ∧
    (rebase st w none).w = w ∧
    (rebase st w none).st.data = (deep_update disk st.data).1 ∧
    (rebase st w none).st.writable = false ∧
    (∀ k, alookup st.data k = none →
      alookup (rebase st w none).st.data k = alookup disk k) ∧
    (∀ k v, alookup st.data k = some v → is_nonempty_map v = false →
      alookup (rebase st w none).st.data k = some v) := by
  have hdata : (rebase st w none).st.data = (deep_update disk st.data).1 := by
    simp [rebase, reinit, init_self, otruthy, dtruthy, file_exists,
      load_yaml, hfp, hne, hdisk, hm]
  refine ⟨?_, ?_, hdata, ?_, ?_, ?_⟩
  · simp [rebase, reinit, init_self, otruthy, dtruthy, file_exists,
      load_yaml, hfp, hne, hdisk, hm]
  · simp [rebase, reinit, init_self, otruthy, dtruthy, file_exists,
      load_yaml, hfp, hne, hdisk, hm]
  · simp [rebase, reinit, init_self, otruthy, dtruthy, file_exists,
      load_yaml, hfp, hne, hdisk, hm]
  · intro k hk
    rw [hdata]
    exact deep_update_absent _ _ _ hm hk
  · intro k v hk hv
    rw [hdata]
    exact deep_update_present_flat _ _ _ _ hnd hm hk hv

/-- Witness for claim C5's amended theorem at concrete inputs. -/
theorem claim_C5_rebase_witness :
    (let st : CfgState :=
      { data := [("a", Val.vint 5)], filepath := some "c",
        wait_max := 60, skip_read_lock := false, writable := true,
        already_writable := true }
     let w : World :=
      { fs := [("c", [("a", Val.vint 1), ("b", Val.vint 2)])],
        locks := ["lock.c"] }
     (rebase st w none).err = none ∧
     (rebase st w none).w = w ∧
     (rebase st w none).st.data =
       (deep_update [("a", Val.vint 1), ("b", Val.vint 2)]
         [("a", Val.vint 5)]).1 ∧
     (rebase st w none).st.writable = false ∧
     (∀ k, alookup [("a", Val.vint 5)] k = none →
       alookup (rebase st w none).st.data k =
         alookup [("a", Val.vint 1), ("b", Val.vint 2)] k) ∧
     (∀ k v, alookup [("a", Val.vint 5)] k = some v →
       is_nonempty_map v = false →
       alookup (rebase st w none).st.data k = some v)) :=
  claim_C5_rebase _ _ "c" [("a", Val.vint 1), ("b", Val.vint 2)] rfl
    (by decide) rfl (by simp [nodup_keys])
    (by simp [deep_update, aset, alookup])

/-- Claim C2: the claim quantifies over every sequence of scope entries
and exits, including a nested scope inside an outer one.  On the code the
inner __enter__ of a nested scope sets already_writable, the inner
__exit__ leaves it set, so the outer __exit__ -- whose scope was entered
on a read-only object and should therefore release the lock -- keeps the
lock held, refuting the claim on this four-step sequence. -/
theorem claim_C2_counterexample :
    (let st0 : CfgState :=
      { data := [], filepath := some "c", wait_max := 60,
        skip_read_lock := false, writable := false,
        already_writable := false }
     let w0 : World := { fs := [("c", [])], locks := [] }
     let r1 := enter_cm st0 w0
     let r2 := enter_cm r1.st r1.w
     let r3 := exit_cm r2.st r2.w
     let r4 := exit_cm r3.st r3.w
     st0.writable = false ∧ r1.err = none ∧ r2.err = none ∧
     r3.err = none ∧ r4.err = none ∧
     make_lock_path "c" ∈ r4.w.locks ∧ r4.st.writable = true) := by
  refine ⟨rfl, ?_, ?_, ?_, ?_, ?_, ?_⟩ <;>
    simp [enter_cm, exit_cm, make_writable, make_writable_reload,
      make_readonly, reinit, init_self, create_lock, remove_lock,
      check_filepath, otruthy, dtruthy, file_exists, load_yaml, alookup,
      deep_update, make_lock_path, DEFAULT_WAIT_TIME]

/-- Claim C2 (amended): for a single non-nested writable scope the claim
holds: entering a writable scope on an already-writable object leaves the
lock held after exit; entering on a read-only file-backed object acquires
the lock on entry and releases it on exit; and __exit__ always returns
False, so an exception raised by the scope body is propagated, not
suppressed.  The nested-scope generalization is refuted by the
counterexample. -/
theorem claim_C2_scope :
    (∀ (st : CfgState) (w : World), st.writable = true →
      (enter_cm st w).err = none ∧
      (exit_cm (enter_cm st w).st (enter_cm st w).w).st.writable = true ∧
      (exit_cm (enter_cm st w).st (enter_cm st w).w).w.locks = w.locks ∧
      (exit_cm (enter_cm st w).st (enter_cm st w).w).ret = false) ∧
    (∀ (st : CfgState) (w : World) (fp : String) (disk : Dict),
      st.writable = false → st.filepath = some fp → fp ≠ "" →
      make_lock_path fp ∉ w.locks → alookup w.fs fp = some disk →
      (deep_update disk st.data).2 = true →
      (enter_cm st w).err = none ∧
      (enter_cm st w).st.writable = true ∧
      make_lock_path fp ∈ (enter_cm st w).w.locks ∧
      (exit_cm (enter_cm st w).st (enter_cm st w).w).st.writable = false ∧
      (exit_cm (enter_cm st w).st (enter_cm st w).w).w.locks = w.locks ∧
      (exit_cm (enter_cm st w).st (enter_cm st w).w).ret = false) ∧
    (∀ (st : CfgState) (w : World), (exit_cm st w).ret = false) := by
  refine ⟨?_, ?_, ?_⟩
  · intro st w hw
    simp [enter_cm, exit_cm, make_writable, hw]
  · intro st w fp disk hro hfp hne hlock hdisk hm
    have h1 : enter_cm st w =
        OpResult.mk
          { data := (deep_update disk st.data).1, filepath := some fp,
            wait_max := DEFAULT_WAIT_TIME, skip_read_lock := true,
            writable := true, already_writable := false }
          { fs := w.fs, locks := make_lock_path fp :: w.locks } none
          true := by
      simp [enter_cm, make_writable, make_writable_reload, reinit,
        init_self, create_lock, check_filepath, otruthy, dtruthy,
        file_exists, load_yaml, hro, hfp, hne, hlock, hdisk, hm]
    rw [h1]
    simp [exit_cm, make_readonly, remove_lock, check_filepath,
      make_lock_path]
  · intro st w
    simp [exit_cm, make_readonly, check_filepath, remove_lock]
    by_cases h : st.already_writable <;> simp [h]

/-- Witness for claim C2's amended theorem at concrete inputs. -/
theorem claim_C2_scope_witness :
    (let stw : CfgState :=
      { data := [], filepath := some "c", wait_max := 60,
        skip_read_lock := false, writable := true,
        already_writable := true }
     let ww : World := { fs := [("c", [])], locks := ["lock.c"] }
     let str : CfgState :=
      { data := [], filepath := some "c", wait_max := 60,
        skip_read_lock := false, writable := false,
        already_writable := false }
     let wr : World := { fs := [("c", [])], locks := [] }
     ((enter_cm stw ww).err = none ∧
      (exit_cm (enter_cm stw ww).st (enter_cm stw ww).w).st.writable =
        true ∧
      (exit_cm (enter_cm stw ww).st (enter_cm stw ww).w).w.locks =
        ww.locks ∧
      (exit_cm (enter_cm stw ww).st (enter_cm stw ww).w).ret = false) ∧
     ((enter_cm str wr).err = none ∧
      (enter_cm str wr).st.writable = true ∧
      make_lock_path "c" ∈ (enter_cm str wr).w.locks ∧
      (exit_cm (enter_cm str wr).st (enter_cm str wr).w).st.writable =
        false ∧
      (exit_cm (enter_cm str wr).st (enter_cm str wr).w).w.locks =
        wr.locks ∧
      (exit_cm (enter_cm str wr).st (enter_cm str wr).w).ret = false) ∧
     (exit_cm stw ww).ret = false) :=
  ⟨claim_C2_scope.1 _ _ rfl,
   claim_C2_scope.2.1 _ _ "c" [] rfl rfl (by decide) (by decide) rfl
     (by simp [deep_update]),
   claim_C2_scope.2.2 _ _⟩

/-- The lock-ownership invariant of claim C3: a writable object has a lock
sentinel at the lock path derived from its current filepath. -/
abbrev lock_invariant (st : CfgState) (w : World) : Prop :=
  st.writable = true →
    ∃ fp, st.filepath = some fp ∧ make_lock_path fp ∈ w.locks

/-- Reinitialization with writable at its default and skip_read_lock set
(the _reinit configuration) leaves the lock set unchanged, the result
read-only with a cleared context flag, and the filepath at the loaded
file. -/
theorem init_self_skip_props (st : CfgState) (w : World) (e : Option Dict)
    (f : String) (y : Option Dict) (wm : Nat) (cf : Bool) (hf : f ≠ "") :
    (init_self st w e (some f) y false wm true cf).w.locks = w.locks ∧
    (init_self st w e (some f) y false wm true cf).st.writable = false ∧
    (init_self st w e (some f) y false wm true cf).st.already_writable =
      false ∧
    (init_self st w e (some f) y false wm true cf).st.filepath = some f := by
  by_cases h3 : (alookup w.fs f).isSome <;> by_cases h5 : cf <;>
    simp [init_self, otruthy, hf, h3, h5, dtruthy, file_exists]

/-- With a truthy current filepath, _reinit with no argument coincides
with _reinit at that filepath. -/
theorem reinit_none_eq (st : CfgState) (w : World) (f : String)
    (hf : f ≠ "") (hfp : st.filepath = some f) :
    reinit st w none = reinit st w (some f) := by
  simp [reinit, otruthy, hf, hfp]

/-- The _reinit wrapper inherits the init_self_skip_props facts. -/
theorem reinit_props (st : CfgState) (w : World) (f : String)
    (hf : f ≠ "") :
    (reinit st w (some f)).w.locks = w.locks ∧
    (reinit st w (some f)).st.writable = false ∧
    (reinit st w (some f)).st.already_writable = false ∧
    (reinit st w (some f)).st.filepath = some f := by
  have h := init_self_skip_props st w none f none DEFAULT_WAIT_TIME false hf
  have hr : reinit st w (some f) =
      (let r := init_self st w none (some f) none false DEFAULT_WAIT_TIME
        true false
       match r.err with
       | some _ => r
       | none =>
         let m := deep_update r.st.data st.data
         OpResult.mk { r.st with data := m.1 } r.w
           (if m.2 then none else some Err.typeErr) m.2) := by
    simp [reinit, otruthy, hf]
  rw [hr]
  cases herr : (init_self st w none (some f) none false DEFAULT_WAIT_TIME
      true false).err <;>
    simp [herr, h.1, h.2.1, h.2.2.1, h.2.2.2]

/-- Claim C3: two distinct invariant violations, both reachable with
the claim's own operations.  First, make_writable called with a filepath
argument different from the current one on an already-writable object
moves the filepath but returns immediately without acquiring a lock at
the new lock path.  Second, constructing writable, entering a writable
scope, calling make_readonly inside it (which releases the lock), and
exiting the scope leaves writable = true with no lock sentinel anywhere:
__exit__ sees the re-entrancy flag and re-asserts writable without
re-acquiring a lock. -/
theorem claim_C3_counterexample :
    ((let st : CfgState :=
      { data := [], filepath := some "a", wait_max := 60,
        skip_read_lock := false, writable := true,
        already_writable := true }
     let w : World :=
      { fs := [("a", []), ("b", [])], locks := ["lock.a"] }
     let r := make_writable st w (some "b")
     lock_invariant st w ∧ r.err = none ∧ r.st.writable = true ∧
     ¬ lock_invariant r.st r.w) ∧
    (let w0 : World := { fs := [("c", [])], locks := [] }
     let r1 := construct w0 none (some "c") none true 60 false false
     let r2 := enter_cm r1.st r1.w
     let r3 := make_readonly r2.st r2.w
     let r4 := exit_cm r3.st r3.w
     r1.err = none ∧ r2.err = none ∧ r3.err = none ∧ r4.err = none ∧
     r4.st.writable = true ∧ r4.w.locks = [] ∧
     ¬ lock_invariant r4.st r4.w)) := by
  constructor
  · refine ⟨fun _ => ⟨"a", rfl, by decide⟩, rfl, rfl, ?_⟩
    intro h
    obtain ⟨fp, hfp, hmem⟩ := h rfl
    have hfp2 : fp = "b" := by
      have h2 := hfp
      simp [make_writable] at h2
      exact h2.symm
    subst hfp2
    revert hmem
    simp [make_writable, make_lock_path]
  · refine ⟨by decide, by decide, by decide, by decide, by decide,
      by decide, ?_⟩
    intro h
    obtain ⟨fp, hfp, hmem⟩ := h (by decide)
    have hfp2 : fp = "c" := by
      have hc : (exit_cm (make_readonly
          (enter_cm (construct { fs := [("c", [])], locks := [] } none
            (some "c") none true 60 false false).st
            (construct { fs := [("c", [])], locks := [] } none
              (some "c") none true 60 false false).w).st
          (enter_cm (construct { fs := [("c", [])], locks := [] } none
            (some "c") none true 60 false false).st
            (construct { fs := [("c", [])], locks := [] } none
              (some "c") none true 60 false false).w).w).st
          (make_readonly
          (enter_cm (construct { fs := [("c", [])], locks := [] } none
            (some "c") none true 60 false false).st
            (construct { fs := [("c", [])], locks := [] } none
              (some "c") none true 60 false false).w).st
          (enter_cm (construct { fs := [("c", [])], locks := [] } none
            (some "c") none true 60 false false).st
            (construct { fs := [("c", [])], locks := [] } none
              (some "c") none true 60 false false).w).w).w).st.filepath =
          some "c" := by decide
      rw [hc] at hfp
      exact (Option.some.inj hfp).symm
    subst hfp2
    revert hmem
    decide

/-- Claim C3 (amended): the invariant writable ⇒ lock sentinel at
lockPathOf(filepath) is established by construction with writable=true and
by read-only construction, and preserved by make_readonly, by
make_writable when its filepath argument is absent or equal to the current
one, by scope entry, and by scope exit provided the re-entrancy flag
implies the lock is still held (writable).  It is not preserved by
make_writable with a changed filepath on an already-writable object (see
the counterexample). -/
theorem claim_C3_lock_invariant :
    (∀ (w : World) (e : Option Dict) (f : String) (y : Option Dict)
       (wm : Nat) (srl cf : Bool), f ≠ "" →
       (construct w e (some f) y true wm srl cf).err = none →
       lock_invariant (construct w e (some f) y true wm srl cf).st
         (construct w e (some f) y true wm srl cf).w) ∧
    (∀ (w : World) (e : Option Dict) (fp : Option String) (y : Option Dict)
       (wm : Nat) (srl cf : Bool),
       lock_invariant (construct w e fp y false wm srl cf).st
         (construct w e fp y false wm srl cf).w) ∧
    (∀ (st : CfgState) (w : World),
       lock_invariant (make_readonly st w).st (make_readonly st w).w) ∧
    (∀ (st : CfgState) (w : World) (f : String) (fparg : Option String),
       st.filepath = some f → f ≠ "" →
       (fparg = none ∨ fparg = some f) → lock_invariant st w →
       (make_writable st w fparg).err = none →
       lock_invariant (make_writable st w fparg).st
         (make_writable st w fparg).w) ∧
    (∀ (st : CfgState) (w : World) (f : String), st.filepath = some f →
       f ≠ "" → lock_invariant st w → (enter_cm st w).err = none →
       lock_invariant (enter_cm st w).st (enter_cm st w).w) ∧
    (∀ (st : CfgState) (w : World), lock_invariant st w →
       (st.already_writable = true → st.writable = true) →
       lock_invariant (exit_cm st w).st (exit_cm st w).w) := by
  have hreload : ∀ (st : CfgState) (w : World) (f : String), f ≠ "" →
      (make_writable_reload st w f).err = none →
      (make_writable_reload st w f).st.writable = true ∧
      (make_writable_reload st w f).st.filepath = some f ∧
      (make_writable_reload st w f).w.locks = w.locks := by
    intro st w f hf
    have hpA := reinit_props st w f hf
    unfold make_writable_reload
    cases herr : (reinit st w (some f)).err with
    | none =>
      intro _
      simp only [herr]
      exact ⟨trivial, hpA.2.2.2, hpA.1⟩
    | some e =>
      cases hos : isOSError e with
      | true =>
        intro _
        simp only [herr, hos, if_true]
        exact ⟨trivial, hpA.2.2.2, hpA.1⟩
      | false =>
        simp only [herr, hos, Bool.false_eq_true, if_false]
        rw [reinit_none_eq _ _ f hf hpA.2.2.2]
        have hpB := reinit_props (reinit st w (some f)).st
          (reinit st w (some f)).w f hf
        cases herr2 : (reinit (reinit st w (some f)).st
            (reinit st w (some f)).w (some f)).err with
        | none =>
          intro _
          simp only [herr2]
          exact ⟨trivial, hpB.2.2.2, hpB.1.trans hpA.1⟩
        | some e2 =>
          intro hcontra
          simp [herr2] at hcontra
  have hmw : ∀ (st : CfgState) (w : World) (f : String),
      st.filepath = some f → f ≠ "" → lock_invariant st w →
      (make_writable st w none).err = none →
      lock_invariant (make_writable st w none).st
        (make_writable st w none).w := by
    intro st w f hfp hf hinv hok
    by_cases hw : st.writable
    · simpa [make_writable, hw] using hinv
    · by_cases hmem : make_lock_path f ∈ w.locks
      · exfalso
        simp [make_writable, hw, hfp, check_filepath, create_lock,
          hmem] at hok
      · have hred : make_writable st w none = make_writable_reload st
            { w with locks := make_lock_path f :: w.locks } f := by
          simp [make_writable, hw, hfp, check_filepath, create_lock, hmem]
        rw [hred] at hok ⊢
        obtain ⟨h1, h2, h3⟩ := hreload st
          { w with locks := make_lock_path f :: w.locks } f hf hok
        intro _
        refine ⟨f, h2, ?_⟩
        rw [h3]
        exact List.mem_cons_self _ _
  refine ⟨?_, ?_, ?_, ?_, ?_, ?_⟩
  · intro w e f y wm srl cf hf hok
    by_cases hmem : make_lock_path f ∈ w.locks
    · exfalso
      simp [construct, init_self, otruthy, hf, create_lock, hmem] at hok
    · by_cases hex : (alookup w.fs f).isSome <;> by_cases hcf : cf <;>
        first
        | (exfalso
           simp [construct, init_self, otruthy, hf, create_lock, hmem,
             hex, hcf, file_exists] at hok
           done)
        | (intro hwz
           refine ⟨f, ?_, ?_⟩ <;>
             simp [construct, init_self, otruthy, hf, create_lock, hmem,
               hex, hcf, dtruthy, file_exists])
  · intro w e fp y wm srl cf
    intro hw
    exfalso
    revert hw
    by_cases h1 : otruthy fp <;>
      by_cases h2 : srl <;>
      by_cases h3 : (alookup w.fs (fp.getD "")).isSome <;>
      by_cases h4 : make_lock_path (fp.getD "") ∈ w.locks <;>
      by_cases h5 : cf <;>
      simp [construct, init_self, create_lock, h1, h2, h3, h4, h5,
        dtruthy, file_exists] <;>
      (try (split <;> rfl))
  · intro st w
    intro hw
    exfalso
    revert hw
    cases hfp : st.filepath <;>
      simp [make_readonly, check_filepath, hfp, remove_lock]
  · intro st w f fparg hfp hf harg hinv hok
    have hbody : make_writable st w fparg = make_writable st w none := by
      rcases harg with rfl | rfl
      · rfl
      · simp [make_writable, hfp]
    rw [hbody] at hok ⊢
    exact hmw st w f hfp hf hinv hok
  · intro st w f hfp hf hinv hok
    by_cases hw : st.writable
    · have hinner : lock_invariant { st with already_writable := true } w :=
        fun h => hinv h
      have := hmw { st with already_writable := true } w f hfp hf hinner
      simpa [enter_cm, hw] using this (by simpa [enter_cm, hw] using hok)
    · have := hmw st w f hfp hf hinv
      simpa [enter_cm, hw] using this (by simpa [enter_cm, hw] using hok)
  · intro st w hinv haw
    by_cases h : st.already_writable
    · have hw := haw h
      obtain ⟨fp, hfp, hmem⟩ := hinv hw
      intro _
      exact ⟨fp, by simpa [exit_cm, h] using hfp,
        by simpa [exit_cm, h] using hmem⟩
    · intro hcontra
      exfalso
      revert hcontra
      cases hfp : st.filepath <;>
        simp [exit_cm, h, make_readonly, check_filepath, hfp, remove_lock]

/-- Witness for claim C3's amended theorem at concrete inputs. -/
theorem claim_C3_lock_invariant_witness :
    (let wempty : World := { fs := [("c", [])], locks := [] }
     let str : CfgState :=
      { data := [], filepath := some "c", wait_max := 60,
        skip_read_lock := false, writable := false,
        already_writable := false }
     let stw : CfgState :=
      { data := [], filepath := some "c", wait_max := 60,
        skip_read_lock := false, writable := true,
        already_writable := true }
     let wlock : World := { fs := [("c", [])], locks := ["lock.c"] }
     lock_invariant
       (construct wempty none (some "c") none true 60 false false).st
       (construct wempty none (some "c") none true 60 false false).w ∧
     lock_invariant
       (construct wempty none (some "c") none false 60 false false).st
       (construct wempty none (some "c") none false 60 false false).w ∧
     lock_invariant (make_readonly stw wlock).st
       (make_readonly stw wlock).w ∧
     lock_invariant (make_writable str wempty none).st
       (make_writable str wempty none).w ∧
     lock_invariant (enter_cm str wempty).st (enter_cm str wempty).w ∧
     lock_invariant (exit_cm stw wlock).st (exit_cm stw wlock).w) := by
  refine ⟨claim_C3_lock_invariant.1 _ none "c" none 60 false false
      (by decide) ?h1,
    claim_C3_lock_invariant.2.1 _ none (some "c") none 60 false false,
    claim_C3_lock_invariant.2.2.1 _ _,
    claim_C3_lock_invariant.2.2.2.1 _ _ "c" none rfl (by decide)
      (Or.inl rfl) (fun h => by cases h) ?h2,
    claim_C3_lock_invariant.2.2.2.2.1 _ _ "c" rfl (by decide)
      (fun h => by cases h) ?h3,
    claim_C3_lock_invariant.2.2.2.2.2 _ _ (fun _ => ⟨"c", rfl, by decide⟩)
      (fun _ => rfl)⟩
  case h1 =>
    simp [construct, init_self, otruthy, create_lock, file_exists,
      dtruthy, make_lock_path, alookup, load_yaml]
  case h2 =>
    simp [make_writable, make_writable_reload, check_filepath,
      create_lock, reinit, init_self, otruthy, dtruthy, file_exists,
      load_yaml, alookup, deep_update, make_lock_path, DEFAULT_WAIT_TIME]
  case h3 =>
    simp [enter_cm, make_writable, make_writable_reload, check_filepath,
      create_lock, reinit, init_self, otruthy, dtruthy, file_exists,
      load_yaml, alookup, deep_update, make_lock_path, DEFAULT_WAIT_TIME]

/-- A mapping key as the unpatched YAML parser renders it: string, int,
float (carried with its Python str() text; the numeric value is never
inspected), or bool (a bool is an int in Python, so the isinstance check
of the patched loader catches it too). -/
inductive YKey where
  | kstr : String → YKey
  | kint : Int → YKey
  | kfloat : String → YKey
  | kbool : Bool → YKey
  deriving DecidableEq

/- A parsed YAML node before the key-coercion pass, with mutual list and
map spines so that structural recursion and induction stay primitive. -/
mutual
inductive YNode where
  | ystr : String → YNode
  | yint : Int → YNode
  | ybool : Bool → YNode
  | ynull : YNode
  | yseq : YList → YNode
  | ymap : YMap → YNode
inductive YList where
  | lnil : YList
  | lcons : YNode → YList → YList
inductive YMap where
  | mnil : YMap
  | mcons : YKey → YNode → YMap → YMap
end

/-- The key coercion performed by my_construct_mapping: str(key) whenever
the key is an int or a float (Python bools are ints; str(True) is
"True"), strings untouched. -/
def coerce_key : YKey → YKey
  | YKey.kint n => YKey.kstr (toString n)
  | YKey.kfloat s => YKey.kstr s
  | YKey.kbool b => YKey.kstr (if b then "True" else "False")
  | YKey.kstr s => YKey.kstr s

/- Embedding of the patched loader: my_construct_mapping runs on every
mapping node the parser constructs, so the coercion reaches every nesting
level (inside sequences as well). -/
mutual
def coerce_node : YNode → YNode
  | YNode.yseq l => YNode.yseq (coerce_list l)
  | YNode.ymap m => YNode.ymap (coerce_map m)
  | YNode.ystr s => YNode.ystr s
  | YNode.yint n => YNode.yint n
  | YNode.ybool b => YNode.ybool b
  | YNode.ynull => YNode.ynull
def coerce_list : YList → YList
  | YList.lnil => YList.lnil
  | YList.lcons h t => YList.lcons (coerce_node h) (coerce_list t)
def coerce_map : YMap → YMap
  | YMap.mnil => YMap.mnil
  | YMap.mcons k v t => YMap.mcons (coerce_key k) (coerce_node v) (coerce_map t)
end

/-- Whether a key is a string. -/
def is_str_key : YKey → Bool
  | YKey.kstr _ => true
  | _ => false

/- Whether every mapping key in the tree, at every nesting level, is a
string. -/
mutual
def all_keys_str : YNode → Bool
  | YNode.yseq l => all_keys_str_list l
  | YNode.ymap m => all_keys_str_map m
  | _ => true
def all_keys_str_list : YList → Bool
  | YList.lnil => true
  | YList.lcons h t => all_keys_str h && all_keys_str_list t
def all_keys_str_map : YMap → Bool
  | YMap.mnil => true
  | YMap.mcons k v t =>
      is_str_key k && all_keys_str v && all_keys_str_map t
end

/-- A key a caller passes to __getitem__. -/
inductive PyKey where
  | pstr : String → PyKey
  | pint : Int → PyKey

/-- Python equality between a stored dict key and a queried key, for the
combinations the claims exercise: a str never equals an int and vice
versa.  (Numeric cross-type equalities such as True == 1 cannot arise
after coercion, which leaves only string keys in the dict.) -/
def ykey_eq : YKey → PyKey → Bool
  | YKey.kstr s, PyKey.pstr t => s = t
  | YKey.kint n, PyKey.pint m => n = m
  | YKey.kstr _, PyKey.pint _ => false
  | YKey.kint _, PyKey.pstr _ => false
  | YKey.kbool _, PyKey.pstr _ => false
  | YKey.kbool b, PyKey.pint m => (if b then (1 : Int) else 0) = m
  | YKey.kfloat _, _ => false

/-- Embedding of __getitem__ on a loaded mapping (self.data[item]):
return the value of the first key equal to the query, else KeyError. -/
def ymap_getitem : YMap → PyKey → Except Err YNode
  | YMap.mnil, _ => Except.error Err.keyErr
  | YMap.mcons k v t, q =>
      if ykey_eq k q then Except.ok v else ymap_getitem t q

mutual
theorem coerce_node_all_str : ∀ n, all_keys_str (coerce_node n) = true
  | YNode.ystr _ => rfl
  | YNode.yint _ => rfl
  | YNode.ybool _ => rfl
  | YNode.ynull => rfl
  | YNode.yseq l => coerce_list_all_str l
  | YNode.ymap m => coerce_map_all_str m
theorem coerce_list_all_str :
    ∀ l, all_keys_str_list (coerce_list l) = true
  | YList.lnil => rfl
  | YList.lcons h t => by
      simp only [coerce_list, all_keys_str_list, Bool.and_eq_true]
      exact ⟨coerce_node_all_str h, coerce_list_all_str t⟩
theorem coerce_map_all_str : ∀ m, all_keys_str_map (coerce_map m) = true
  | YMap.mnil => rfl
  | YMap.mcons k v t => by
      simp only [coerce_map, all_keys_str_map, Bool.and_eq_true]
      refine ⟨⟨?_, coerce_node_all_str v⟩, coerce_map_all_str t⟩
      cases k <;> rfl
end

/-- Claim C7: loading coerces every int/float-rendered mapping key to its
string form at every nesting level; for the document with the bare
numeric-looking key (one: 1 / 2: two, parsed by the external yaml parser
into a mapping with the int key 2) lookup by the string "2" succeeds and
lookup by the int 2 raises KeyError. -/
theorem claim_C7_key_coercion :
    (∀ n, all_keys_str (coerce_node n) = true) ∧
    (let doc := YMap.mcons (YKey.kstr "one") (YNode.yint 1)
      (YMap.mcons (YKey.kint 2) (YNode.ystr "two") YMap.mnil)
     ymap_getitem (coerce_map doc) (PyKey.pstr "2") =
       Except.ok (YNode.ystr "two") ∧
     ymap_getitem (coerce_map doc) (PyKey.pint 2) =
       Except.error Err.keyErr) := by
  refine ⟨coerce_node_all_str, ?_, ?_⟩ <;>
    simp [coerce_map, coerce_key, coerce_node, ymap_getitem, ykey_eq] <;>
    rfl

/-- The keyword parameter names of YAMLConfigManager.__init__
(yacman.py). -/
def ycm_init_params : List String :=
  ["entries", "filepath", "yamldata", "writable", "wait_max",
   "skip_read_lock", "schema_source", "validate_on_write", "create_file"]

/-- The keyword arguments AliasedYAMLConfigManager.__init__ forwards to
super().__init__ (alias.py). -/
def aliased_super_kwargs : List String :=
  ["entries", "filepath", "yamldata", "locked", "wait_max",
   "skip_read_lock"]

/-- Embedding of Python keyword binding for a function without **kwargs:
the call raises TypeError iff some passed keyword is not among the
parameter names. -/
def kwargs_bind_ok (params kwargs : List String) : Bool :=
  kwargs.all (fun k => params.contains k)

/-- Embedding of AliasedYAMLConfigManager.__init__: its first statement
is the super().__init__ call with the fixed keyword set
aliased_super_kwargs, so the call's outcome is decided by keyword binding
alone, regardless of the argument values (alias processing is
unreachable). -/
def aliased_ycm_init (entries : Option Dict) (filepath : Option String)
    (yamldata : Option Dict) (locked : Bool) (wait_max : Nat)
    (strict_ro_locks skip_read_lock : Bool)
    (aliases : Option (List (String × List String))) (exact_arg : Bool)
    (aliases_strict : Option Bool) : Except Err Unit :=
  if kwargs_bind_ok ycm_init_params aliased_super_kwargs then
    Except.ok ()
  else Except.error Err.typeErr

/-- Claim C10: every construction of AliasedYAMLConfigManager raises
TypeError, for every combination of argument values, because the
forwarded keyword set contains locked, which the parent parameter list
lacks. -/
theorem claim_C10_aliased_init_raises :
    (∀ (entries : Option Dict) (filepath : Option String)
       (yamldata : Option Dict) (locked : Bool) (wait_max : Nat)
       (strict_ro_locks skip_read_lock : Bool)
       (aliases : Option (List (String × List String))) (exact_arg : Bool)
       (aliases_strict : Option Bool),
       aliased_ycm_init entries filepath yamldata locked wait_max
         strict_ro_locks skip_read_lock aliases exact_arg aliases_strict =
         Except.error Err.typeErr) ∧
    "locked" ∈ aliased_super_kwargs ∧ "locked" ∉ ycm_init_params := by
  refine ⟨?_, by decide, by decide⟩
  intro entries filepath yamldata locked wait_max strict_ro_locks
    skip_read_lock aliases exact_arg aliases_strict
  simp [aliased_ycm_init, kwargs_bind_ok, ycm_init_params,
    aliased_super_kwargs]

/-- A Python runtime value for the expansion claims: immutable leaves
(str, int, None) and references into a heap of mutable objects.  Object
identity -- what the deep-copy part of the claim is about -- is the
reference. -/
inductive HVal where
  | hstr : String → HVal
  | hint : Int → HVal
  | hnone : HVal
  | href : Nat → HVal
  deriving DecidableEq

/-- A mutable Python object: a list or a dict. -/
inductive HObj where
  | olist : List HVal → HObj
  | odict : List (String × HVal) → HObj
  deriving DecidableEq

/-- The object heap: object id to object. -/
abbrev Heap := List (Nat × HObj)

/-- Dereference an object id. -/
def heap_get : Heap → Nat → Option HObj
  | [], _ => none
  | (r1, o1) :: t, r => if r1 = r then some o1 else heap_get t r

/-- Mutate the object at an id in place. -/
def heap_set : Heap → Nat → HObj → Heap
  | [], _, _ => []
  | (r1, o1) :: t, r, o =>
      if r1 = r then (r, o) :: t else (r1, o1) :: heap_set t r o

/-- Read a list object. -/
def read_list (h : Heap) (r : Nat) : Option (List HVal) :=
  match heap_get h r with
  | some (HObj.olist xs) => some xs
  | _ => none

/-- Every allocated id is below the allocation counter. -/
abbrev ids_below (h : Heap) (c : Nat) : Prop := ∀ p ∈ h, p.1 < c

/-- The process environment for expansion. -/
structure Env where
  home : String
  vars : List (String × String)

/-- Modelled from the spec: ubiquerg expandpath is an external
collaborator; per the spec, a string gets user-home and
environment-variable substitution and an unresolved variable passes
through literally. -/
def expandpath (e : Env) (s : String) : String :=
  if s = "~" then e.home
  else if s.startsWith "$" then
    match alookup e.vars (s.drop 1) with
    | some v => v
    | none => s
  else s

/- Embedding of _safely_expand_path over the heap: a string is expanded
(a new immutable string), a Mapping is rebuilt as a dict comprehension --
a freshly allocated dict object whose values are expanded recursively --
and every other value (ints, None, and crucially list objects) is
returned as is: the very same reference.  The fuel argument bounds the
dereferencing depth (Python would recurse forever on a cyclic dict); the
counter c is the allocator, handing out fresh ids. -/
mutual
def expand_val (e : Env) : Nat → Heap → Nat → HVal →
    Option (HVal × Heap × Nat)
  | 0, _, _, _ => none
  | _ + 1, h, c, HVal.hstr s => some (HVal.hstr (expandpath e s), h, c)
  | _ + 1, h, c, HVal.hint n => some (HVal.hint n, h, c)
  | _ + 1, h, c, HVal.hnone => some (HVal.hnone, h, c)
  | fuel + 1, h, c, HVal.href r =>
    match heap_get h r with
    | some (HObj.odict es) =>
      match expand_entries e fuel h c es with
      | some (es2, h2, c2) =>
          some (HVal.href c2, h2 ++ [(c2, HObj.odict es2)], c2 + 1)
      | none => none
    | some (HObj.olist _) => some (HVal.href r, h, c)
    | none => none
  termination_by fuel _ _ _ => (fuel, 0)
def expand_entries (e : Env) : Nat → Heap → Nat → List (String × HVal) →
    Option (List (String × HVal) × Heap × Nat)
  | _, h, c, [] => some ([], h, c)
  | fuel, h, c, (k, v) :: rest =>
    match expand_val e fuel h c v with
    | some (v2, h2, c2) =>
      match expand_entries e fuel h2 c2 rest with
      | some (rest2, h3, c3) => some ((k, v2) :: rest2, h3, c3)
      | none => none
    | none => none
  termination_by fuel _ _ es => (fuel, es.length + 1)
end

theorem heap_get_append (h : Heap) (r c2 : Nat) (o : HObj)
    (hne : r ≠ c2) : heap_get (h ++ [(c2, o)]) r = heap_get h r := by
  induction h with
  | nil => simp [heap_get, Ne.symm hne]
  | cons hd tl ih =>
    obtain ⟨r1, o1⟩ := hd
    by_cases hr : r1 = r
    · simp [heap_get, hr]
    · simp [heap_get, hr, ih]

mutual
/-- Frame property of _safely_expand_path: the allocation counter only
grows, all ids stay below it, and no pre-existing object is mutated (all
ids below the incoming counter dereference identically afterwards). -/
theorem expand_val_frame (e : Env) : ∀ (fuel : Nat) (h : Heap) (c : Nat)
    (v : HVal) (res : HVal × Heap × Nat), ids_below h c →
    expand_val e fuel h c v = some res →
    c ≤ res.2.2 ∧ ids_below res.2.1 res.2.2 ∧
      (∀ r, r < c → heap_get res.2.1 r = heap_get h r)
  | 0, h, c, v, res => by
    intro _ hx
    simp [expand_val] at hx
  | fuel + 1, h, c, HVal.hstr s, res => by
    intro hb hx
    simp [expand_val] at hx
    subst hx
    exact ⟨Nat.le_refl _, hb, fun r _ => rfl⟩
  | fuel + 1, h, c, HVal.hint n, res => by
    intro hb hx
    simp [expand_val] at hx
    subst hx
    exact ⟨Nat.le_refl _, hb, fun r _ => rfl⟩
  | fuel + 1, h, c, HVal.hnone, res => by
    intro hb hx
    simp [expand_val] at hx
    subst hx
    exact ⟨Nat.le_refl _, hb, fun r _ => rfl⟩
  | fuel + 1, h, c, HVal.href r, res => by
    intro hb hx
    cases hg : heap_get h r with
    | none => simp [expand_val, hg] at hx
    | some o =>
      cases o with
      | olist xs =>
        simp [expand_val, hg] at hx
        subst hx
        exact ⟨Nat.le_refl _, hb, fun r2 _ => rfl⟩
      | odict es =>
        cases hee : expand_entries e fuel h c es with
        | none => simp [expand_val, hg, hee] at hx
        | some res2 =>
          obtain ⟨es2, h2, c2⟩ := res2
          have IH := expand_entries_frame e fuel h c es (es2, h2, c2)
            hb hee
          simp [expand_val, hg, hee] at hx
          subst hx
          refine ⟨Nat.le_trans IH.1 (Nat.le_succ _), ?_, ?_⟩
          · intro p hp
            rcases List.mem_append.mp hp with hp2 | hp2
            · exact Nat.lt_trans (IH.2.1 p hp2) (Nat.lt_succ_self _)
            · simp at hp2
              subst hp2
              exact Nat.lt_succ_self _
          · intro r2 hr2
            rw [heap_get_append]
            · exact IH.2.2 r2 hr2
            · exact Nat.ne_of_lt (Nat.lt_of_lt_of_le hr2 IH.1)
  termination_by fuel _ _ _ _ => (fuel, 0)
theorem expand_entries_frame (e : Env) : ∀ (fuel : Nat) (h : Heap)
    (c : Nat) (es : List (String × HVal))
    (res : List (String × HVal) × Heap × Nat), ids_below h c →
    expand_entries e fuel h c es = some res →
    c ≤ res.2.2 ∧ ids_below res.2.1 res.2.2 ∧
      (∀ r, r < c → heap_get res.2.1 r = heap_get h r)
  | fuel, h, c, [], res => by
    intro hb hx
    simp [expand_entries] at hx
    subst hx
    exact ⟨Nat.le_refl _, hb, fun r _ => rfl⟩
  | fuel, h, c, (k, v) :: rest, res => by
    intro hb hx
    cases hv : expand_val e fuel h c v with
    | none => simp [expand_entries, hv] at hx
    | some r1 =>
      obtain ⟨v2, h2, c2⟩ := r1
      have IH1 := expand_val_frame e fuel h c v (v2, h2, c2) hb hv
      cases hrest : expand_entries e fuel h2 c2 rest with
      | none => simp [expand_entries, hv, hrest] at hx
      | some r2 =>
        obtain ⟨rest2, h3, c3⟩ := r2
        have IH2 := expand_entries_frame e fuel h2 c2 rest
          (rest2, h3, c3) IH1.2.1 hrest
        simp [expand_entries, hv, hrest] at hx
        subst hx
        refine ⟨Nat.le_trans IH1.1 IH2.1, IH2.2.1, ?_⟩
        intro r2 hr2
        rw [IH2.2.2 r2 (Nat.lt_of_lt_of_le hr2 IH1.1)]
        exact IH1.2.2 r2 hr2
  termination_by fuel _ _ es _ => (fuel, es.length + 1)
end

/-- Embedding of the exp property: _safely_expand_path(self.data), where
rdata is the id of the object's data dict on the heap. -/
def exp_view (e : Env) (fuel : Nat) (h : Heap) (c : Nat) (rdata : Nat) :
    Option (HVal × Heap × Nat) :=
  expand_val e fuel h c (HVal.href rdata)

theorem heap_get_append_self (h : Heap) (c2 : Nat) (o : HObj)
    (hfresh : ∀ p ∈ h, p.1 ≠ c2) :
    heap_get (h ++ [(c2, o)]) c2 = some o := by
  induction h with
  | nil => simp [heap_get]
  | cons hd tl ih =>
    obtain ⟨r1, o1⟩ := hd
    have hne : r1 ≠ c2 := hfresh (r1, o1) (List.mem_cons_self _ _)
    simp [heap_get, hne]
    exact ih fun p hp => hfresh p (List.mem_cons_of_mem _ hp)

theorem expand_entries_keys (e : Env) (fuel : Nat) :
    ∀ (es : List (String × HVal)) (h : Heap) (c : Nat)
    (res : List (String × HVal) × Heap × Nat),
    expand_entries e fuel h c es = some res →
    res.1.map Prod.fst = es.map Prod.fst := by
  induction fuel using Nat.strong_induction_on with
  | _ fuel ihf =>
  intro es
  induction es with
  | nil =>
    intro h c res hx
    simp [expand_entries] at hx
    subst hx
    rfl
  | cons hd tl ih =>
    intro h c res hx
    obtain ⟨k, v⟩ := hd
    cases hv : expand_val e fuel h c v with
    | none => simp [expand_entries, hv] at hx
    | some r1 =>
      obtain ⟨v2, h2, c2⟩ := r1
      cases hrest : expand_entries e fuel h2 c2 tl with
      | none => simp [expand_entries, hv, hrest] at hx
      | some r2 =>
        simp [expand_entries, hv, hrest] at hx
        subst hx
        simp [ih _ _ _ hrest]

/-- The expanded image of a dict reference is a freshly allocated dict --
an id at or above the allocation counter, hence no pre-existing object --
with the same keys. -/
theorem expand_dict_fresh (e : Env) (fuel : Nat) (h : Heap) (c : Nat)
    (r : Nat) (es : List (String × HVal)) (res : HVal × Heap × Nat)
    (hb : ids_below h c) (hg : heap_get h r = some (HObj.odict es))
    (hx : expand_val e (fuel + 1) h c (HVal.href r) = some res) :
    ∃ r2, res.1 = HVal.href r2 ∧ c ≤ r2 ∧ (∀ p ∈ h, p.1 ≠ r2) ∧
      ∃ es2, heap_get res.2.1 r2 = some (HObj.odict es2) ∧
        es2.map Prod.fst = es.map Prod.fst := by
  cases hee : expand_entries e fuel h c es with
  | none => simp [expand_val, hg, hee] at hx
  | some r1 =>
    obtain ⟨es2, h2, c2⟩ := r1
    have hfr := expand_entries_frame e fuel h c es (es2, h2, c2) hb hee
    simp [expand_val, hg, hee] at hx
    subst hx
    refine ⟨c2, rfl, hfr.1, ?_, es2, ?_, ?_⟩
    · intro p hp
      exact Nat.ne_of_lt (Nat.lt_of_lt_of_le (hb p hp) hfr.1)
    · exact heap_get_append_self h2 c2 _
        (fun p hp => Nat.ne_of_lt (hfr.2.1 p hp))
    · exact expand_entries_keys e fuel es h c (es2, h2, c2) hee

/-- Claim C6: the claim states the expansion accessor returns a deep copy
sharing no mutable substructure with data, so that mutating any part of
the view -- including list values -- never changes data.  On the code a
list value passes through _safely_expand_path unchanged: the very same
list object.  Here data is the dict at id 1 holding the list at id 0;
the expanded view (the fresh dict at id 2) holds the same reference 0;
appending through the view (mutating object 0) makes data read [1, 99]
where it read [1] before. -/
theorem claim_C6_counterexample :
    exp_view { home := "h", vars := [] } 3
      [(0, HObj.olist [HVal.hint 1]), (1, HObj.odict [("k", HVal.href 0)])]
      2 1 =
      some (HVal.href 2,
        [(0, HObj.olist [HVal.hint 1]),
         (1, HObj.odict [("k", HVal.href 0)]),
         (2, HObj.odict [("k", HVal.href 0)])], 3) ∧
    heap_get
      (heap_set
        [(0, HObj.olist [HVal.hint 1]),
         (1, HObj.odict [("k", HVal.href 0)]),
         (2, HObj.odict [("k", HVal.href 0)])] 0
        (HObj.olist [HVal.hint 1, HVal.hint 99])) 1 =
      some (HObj.odict [("k", HVal.href 0)]) ∧
    read_list
      (heap_set
        [(0, HObj.olist [HVal.hint 1]),
         (1, HObj.odict [("k", HVal.href 0)]),
         (2, HObj.odict [("k", HVal.href 0)])] 0
        (HObj.olist [HVal.hint 1, HVal.hint 99])) 0 =
      some [HVal.hint 1, HVal.hint 99] ∧
    read_list
      [(0, HObj.olist [HVal.hint 1]), (1, HObj.odict [("k", HVal.href 0)])]
      0 = some [HVal.hint 1] := by
  refine ⟨?_, ?_, ?_, ?_⟩ <;>
    simp [exp_view, expand_val, expand_entries, heap_get, heap_set,
      read_list]

/-- Claim C6 (amended): expansion expands every string (user-home and
environment variables), returns every mapping as a freshly allocated dict
with the same keys and recursively expanded values, never mutates any
pre-existing object, and passes every other value through unchanged -- in
particular a list value is returned as the same object, so the view
shares that mutable substructure with data (see the counterexample). -/
theorem claim_C6_expansion :
    (∀ (e : Env) (fuel : Nat) (h : Heap) (c : Nat) (s : String),
      expand_val e (fuel + 1) h c (HVal.hstr s) =
        some (HVal.hstr (expandpath e s), h, c)) ∧
    (∀ (e : Env) (fuel : Nat) (h : Heap) (c : Nat) (n : Int),
      expand_val e (fuel + 1) h c (HVal.hint n) =
        some (HVal.hint n, h, c)) ∧
    (∀ (e : Env) (fuel : Nat) (h : Heap) (c : Nat) (r : Nat)
       (xs : List HVal), heap_get h r = some (HObj.olist xs) →
      expand_val e (fuel + 1) h c (HVal.href r) =
        some (HVal.href r, h, c)) ∧
    (∀ (e : Env) (fuel : Nat) (h : Heap) (c : Nat) (v : HVal)
       (res : HVal × Heap × Nat), ids_below h c →
      expand_val e fuel h c v = some res →
      c ≤ res.2.2 ∧ ids_below res.2.1 res.2.2 ∧
        (∀ r, r < c → heap_get res.2.1 r = heap_get h r)) ∧
    (∀ (e : Env) (fuel : Nat) (h : Heap) (c : Nat) (r : Nat)
       (es : List (String × HVal)) (res : HVal × Heap × Nat),
      ids_below h c → heap_get h r = some (HObj.odict es) →
      expand_val e (fuel + 1) h c (HVal.href r) = some res →
      ∃ r2, res.1 = HVal.href r2 ∧ c ≤ r2 ∧ (∀ p ∈ h, p.1 ≠ r2) ∧
        ∃ es2, heap_get res.2.1 r2 = some (HObj.odict es2) ∧
          es2.map Prod.fst = es.map Prod.fst) := by
  refine ⟨?_, ?_, ?_, ?_, ?_⟩
  · intro e fuel h c s
    simp [expand_val]
  · intro e fuel h c n
    simp [expand_val]
  · intro e fuel h c r xs hg
    simp [expand_val, hg]
  · intro e fuel h c v res hb hx
    exact expand_val_frame e fuel h c v res hb hx
  · intro e fuel h c r es res hb hg hx
    exact expand_dict_fresh e fuel h c r es res hb hg hx

/-- Witness for claim C6's amended theorem at concrete inputs. -/
theorem claim_C6_expansion_witness :
    expand_val { home := "h", vars := [("V", "x")] } 1 [] 0
      (HVal.hstr "~") =
      some (HVal.hstr (expandpath { home := "h", vars := [("V", "x")] }
        "~"), [], 0) ∧
    expand_val { home := "h", vars := [] } 1 [] 0 (HVal.hint 7) =
      some (HVal.hint 7, [], 0) ∧
    expand_val { home := "h", vars := [] } 1
      [(0, HObj.olist [HVal.hint 1])] 1 (HVal.href 0) =
      some (HVal.href 0, [(0, HObj.olist [HVal.hint 1])], 1) ∧
    (let h0 : Heap :=
      [(0, HObj.olist [HVal.hint 1]), (1, HObj.odict [("k", HVal.href 0)])]
     let res0 := (HVal.href 2,
        [(0, HObj.olist [HVal.hint 1]),
         (1, HObj.odict [("k", HVal.href 0)]),
         (2, HObj.odict [("k", HVal.href 0)])], 3)
     (2 ≤ res0.2.2 ∧ ids_below res0.2.1 res0.2.2 ∧
       (∀ r, r < 2 → heap_get res0.2.1 r = heap_get h0 r)) ∧
     (∃ r2, res0.1 = HVal.href r2 ∧ 2 ≤ r2 ∧ (∀ p ∈ h0, p.1 ≠ r2) ∧
       ∃ es2, heap_get res0.2.1 r2 = some (HObj.odict es2) ∧
         es2.map Prod.fst = [("k", HVal.href 0)].map Prod.fst)) := by
  refine ⟨claim_C6_expansion.1 { home := "h", vars := [("V", "x")] } 0
      [] 0 "~",
    claim_C6_expansion.2.1 { home := "h", vars := [] } 0 [] 0 7,
    claim_C6_expansion.2.2.1 { home := "h", vars := [] } 0
      [(0, HObj.olist [HVal.hint 1])] 1 0 [HVal.hint 1] rfl, ?_, ?_⟩
  · exact claim_C6_expansion.2.2.2.1 { home := "h", vars := [] } 3
      [(0, HObj.olist [HVal.hint 1]), (1, HObj.odict [("k", HVal.href 0)])]
      2 (HVal.href 1) _ (by decide)
      (by simp [expand_val, expand_entries, heap_get])
  · exact claim_C6_expansion.2.2.2.2 { home := "h", vars := [] } 2
      [(0, HObj.olist [HVal.hint 1]), (1, HObj.odict [("k", HVal.href 0)])]
      2 1 [("k", HVal.href 0)] _ (by decide) rfl
      (by simp [expand_val, expand_entries, heap_get])

/-- The apostrophe character (Python strips it around rendered strings). -/
def apos : Char := Char.ofNat 39

/-- Python str.strip applied with the apostrophe: remove every leading and
trailing apostrophe. -/
def strip_apos (s : String) : String :=
  String.mk (((s.data.dropWhile (fun c => c = apos)).reverse.dropWhile
    (fun c => c = apos)).reverse)

/-- Python \n-join of a list of strings. -/
def join_nl : List String → String
  | [] => ""
  | [x] => x
  | x :: y :: rest => x ++ "\n" ++ join_nl (y :: rest)

/-- Python str.split on the newline character. -/
def split_nl_chars : List Char → List (List Char)
  | [] => [[]]
  | c :: rest =>
    if c = '\n' then [] :: split_nl_chars rest
    else
      match split_nl_chars rest with
      | [] => [[c]]
      | h :: t => (c :: h) :: t

/-- Python str.split on newline, over strings. -/
def split_nl (s : String) : List String :=
  (split_nl_chars s.data).map fun cs => String.mk cs

/-- Python sep.join of a list of strings. -/
def join_sep (sep : String) : List String → String
  | [] => ""
  | [x] => x
  | x :: y :: rest => x ++ sep ++ join_sep sep (y :: rest)

/-- Python repr of a value (single-quoted strings; escaping subtleties are
out of scope -- repr is only reachable for containers nested inside
str(), which the round-trip well-formedness excludes). -/
def py_repr : Val → String
  | Val.vnull => "None"
  | Val.vbool b => if b then "True" else "False"
  | Val.vint n => toString n
  | Val.vstr s => String.mk (apos :: s.data ++ [apos])
  | Val.vlist xs =>
      "[" ++ join_sep ", "
        (xs.attach.map fun x => py_repr x.1) ++ "]"
  | Val.vmap es =>
      "\x7b" ++ join_sep ", "
        (es.attach.map fun p =>
          match p with
          | ⟨(k, v), _⟩ => String.mk (apos :: k.data ++ [apos]) ++ ": " ++
              py_repr v) ++ "\x7d"
  termination_by v => sizeOf v
  decreasing_by
    · have := List.sizeOf_lt_of_mem x.2
      simp at this ⊢
      omega
    · rename_i hmem
      have := List.sizeOf_lt_of_mem hmem
      simp at this ⊢
      omega

/-- Python str() of a value (str of a container is its repr). -/
def pystr : Val → String
  | Val.vstr s => s
  | Val.vnull => "None"
  | Val.vbool b => if b then "True" else "False"
  | Val.vint n => toString n
  | Val.vlist xs => py_repr (Val.vlist xs)
  | Val.vmap es => py_repr (Val.vmap es)

/-- Embedding of _custom_repr (yacman.py _render): a non-empty list
becomes a block of " - " items at the given prefix, a string is stripped
of surrounding apostrophes, everything else is str(). -/
def custom_repr (v : Val) (prefix_ : String) : String :=
  match v with
  | Val.vlist (x :: xs) =>
      "\n" ++ prefix_ ++ " - " ++
        join_sep ("\n" ++ prefix_ ++ " - ") ((x :: xs).map pystr)
  | Val.vstr s => strip_apos s
  | v => pystr v

/-- Indentation: space_per_level = 2 spaces per nesting level. -/
def spaces (lev : Nat) : String := String.mk (List.replicate (2 * lev) ' ')

/-- Embedding of get_data_lines' render for a section header line. -/
def render_header (lev : Nat) (k : String) : String :=
  spaces lev ++ strip_apos k ++ ":"

/-- Embedding of get_data_lines' render for a key-value line ("null" for
None, custom_repr otherwise). -/
def render_withval (lev : Nat) (k : String) (v : Val) : String :=
  spaces lev ++ strip_apos k ++ ":" ++ " " ++
    (match v with
     | Val.vnull => "null"
     | v => custom_repr v (spaces lev))

/-- Embedding of get_data_lines' go loop: one element per key-value (or
empty-mapping) entry, and for a non-empty nested mapping a header element
followed by one element holding the newline-joined sub-block. -/
def get_data_lines : Dict → Nat → List String
  | [], _ => []
  | (k, Val.vmap (e :: es)) :: rest, lev =>
      render_header lev k ::
        join_nl (get_data_lines (e :: es) (lev + 1)) ::
          get_data_lines rest lev
  | (k, v) :: rest, lev => render_withval lev k v :: get_data_lines rest lev
  termination_by d _ => sizeOf d
  decreasing_by all_goals (simp_wf; try omega)

/-- Embedding of get_yaml_lines: an empty mapping is the single line
"{}"; otherwise _render prepends the class name line, the text is split
on newlines and the class name line dropped. -/
def get_yaml_lines (d : Dict) : List String :=
  if d.isEmpty then ["{}"]
  else (split_nl ("YAMLConfigManager" ++ "\n" ++
    join_nl (get_data_lines d 0))).drop 1

/-- Embedding of to_yaml with the default trailing newline. -/
def to_yaml (d : Dict) : String := join_nl (get_yaml_lines d) ++ "\n"

/-- A decimal digit's value. -/
def digit? (c : Char) : Option Nat :=
  if 48 ≤ c.toNat ∧ c.toNat ≤ 57 then some (c.toNat - 48) else none

/-- Accumulate a decimal numeral; none on any non-digit. -/
def digits_to_nat : Nat → List Char → Option Nat
  | acc, [] => some acc
  | acc, c :: cs =>
    match digit? c with
    | some d => digits_to_nat (acc * 10 + d) cs
    | none => none

/-- Integer resolution of a scalar text: an optional minus sign and a
non-empty run of decimal digits. -/
def str_to_int? (s : String) : Option Int :=
  match s.data with
  | [] => none
  | '-' :: rest =>
    match rest with
    | [] => none
    | _ :: _ => (digits_to_nat 0 rest).map (fun n => -(n : Int))
  | cs => (digits_to_nat 0 cs).map (fun n => (n : Int))

/-- Scalar resolution of the modelled YAML loader: null, booleans, the
empty flow collections, integers, else a plain string. -/
def parse_scalar (s : String) : Val :=
  if s = "null" then Val.vnull
  else if s = "True" then Val.vbool true
  else if s = "False" then Val.vbool false
  else if s = "[]" then Val.vlist []
  else if s = "{}" then Val.vmap []
  else
    match str_to_int? s with
    | some n => Val.vint n
    | none => Val.vstr s

/-- Consume exactly n leading spaces; none if a non-space (or the end)
appears among them. -/
def strip_indent : Nat → List Char → Option (List Char)
  | 0, cs => some cs
  | n + 1, c :: cs => if c = ' ' then strip_indent n cs else none
  | _ + 1, [] => none

/-- Split at the first colon. -/
def split_colon : List Char → Option (List Char × List Char)
  | [] => none
  | c :: rest =>
    if c = ':' then some ([], rest)
    else
      match split_colon rest with
      | some (a, b) => some (c :: a, b)
      | none => none

/-- Parse consecutive " - item" block lines at the given level. -/
def parse_items (lev : Nat) :
    (lines : List String) →
      List Val × {rem : List String // rem.length ≤ lines.length}
  | [] => ([], ⟨[], Nat.le_refl _⟩)
  | l :: rest =>
    match strip_indent (2 * lev) l.data with
    | some (' ' :: '-' :: ' ' :: txt) =>
      let p := parse_items lev rest
      (parse_scalar (String.mk txt) :: p.1,
        ⟨p.2.1, Nat.le_succ_of_le p.2.2⟩)
    | _ => ([], ⟨l :: rest, Nat.le_refl _⟩)

/-- Parse a block mapping at the given level: entries at exactly this
indentation, each a scalar line, a nested-map header, or a list header
followed by item lines.  Returns the entries and the unconsumed lines. -/
def parse_map (lev : Nat) (lines : List String) :
    Option (Dict × {rem : List String // rem.length ≤ lines.length}) :=
  match lines with
  | [] => some ([], ⟨[], Nat.le_refl _⟩)
  | l :: rest =>
    match strip_indent (2 * lev) l.data with
    | none => some ([], ⟨l :: rest, Nat.le_refl _⟩)
    | some [] => some ([], ⟨l :: rest, Nat.le_refl _⟩)
    | some (c :: cs) =>
      if c = ' ' then some ([], ⟨l :: rest, Nat.le_refl _⟩)
      else
        match split_colon (c :: cs) with
        | none => none
        | some (kcs, after) =>
          match after with
          | [] =>
            match parse_map (lev + 1) rest with
            | none => none
            | some (child, rem1) =>
              match parse_map lev rem1.1 with
              | none => none
              | some (entries, rem2) =>
                some ((String.mk kcs,
                    if child.isEmpty then Val.vnull
                    else Val.vmap child) :: entries,
                  ⟨rem2.1,
                    Nat.le_succ_of_le (Nat.le_trans rem2.2 rem1.2)⟩)
          | [' '] =>
            match parse_items lev rest with
            | (items, ⟨rem0, hrem0⟩) =>
              match parse_map lev rem0 with
              | none => none
              | some (entries, rem2) =>
                some ((String.mk kcs,
                    if items.isEmpty then Val.vnull
                    else Val.vlist items) :: entries,
                  ⟨rem2.1, Nat.le_succ_of_le (Nat.le_trans rem2.2 hrem0)⟩)
          | ' ' :: t =>
            match parse_map lev rest with
            | none => none
            | some (entries, rem2) =>
              some ((String.mk kcs, parse_scalar (String.mk t)) :: entries,
                ⟨rem2.1, Nat.le_succ_of_le rem2.2⟩)
          | _ => none
  termination_by lines.length
  decreasing_by
    all_goals simp_wf
    all_goals omega

/-- Modelled from the spec: yaml.safe_load (load_yaml's parser) is an
external collaborator; the spec fixes only that a YAML document loads to
a nested string-keyed mapping and that an empty document loads to an
empty mapping.  This model parses the block style the repository's own
dump produces: the empty-document token, indentation-based nested
mappings, " - " item blocks, and plain scalars.  It does not carry
YAML's comment, block-sequence, quoting or scalar-resolution rules for
keys, so the round-trip well-formedness below (entries_wf) confines the
claim to documents on which this model and a YAML 1.1 loader agree:
keys and string leaves are printable-ASCII plain scalars that start with
a letter, contain no colon, hash or apostrophe, do not end in a space,
and are neither reserved words (yes, on, null, ...) nor numerals. -/
def load_model (text : String) : Option Dict :=
  let lines := split_nl text
  if lines.head? = some "{}" ∧ (lines.drop 1).all (fun l => l = "") then
    some []
  else
    match parse_map 0 lines with
    | none => none
    | some (d, rem) =>
      if rem.1.all (fun l => l = "") then some d else none

/-- Scalar texts with a fixed meaning for the modelled loader. -/
def fixed_scalars : List String := ["null", "True", "False", "[]", "{}"]

/-- Texts the real YAML 1.1 resolver gives a non-string meaning; the
well-formedness below keeps clear of them so the modelled loader does not
overclaim. -/
def yaml_reserved : List String :=
  ["y", "Y", "yes", "Yes", "YES", "n", "N", "no", "No", "NO",
   "true", "True", "TRUE", "false", "False", "FALSE",
   "on", "On", "ON", "off", "Off", "OFF", "null", "Null", "NULL", "~"]

/-- A plain string scalar that a YAML 1.1 loader reads back verbatim
and that renders as itself: nonempty; every character printable ASCII
(no tabs, newlines or other control characters, which YAML treats as
breaks or rejects) and none of colon (mapping separator), hash (comment
introducer) or apostrophe (quoting); starting with a letter (so no
sequence/flow/anchor/tag/quote indicator and no numeric or timestamp
look); not trailing a space (plain scalars are stripped); not one of the
YAML 1.1 reserved words; not an integer numeral. -/
def plain_str_wf (s : String) : Bool :=
  decide (s ≠ "") &&
  s.data.all (fun c => decide (c ≠ '\n') && decide (c ≠ ':') &&
    decide (c ≠ '#') && decide (c ≠ apos) &&
    decide (32 ≤ c.toNat) && decide (c.toNat ≤ 126)) &&
  (match s.data.head? with
   | some c => c.isAlpha
   | none => false) &&
  decide (s.data.getLast? ≠ some ' ') &&
  !(yaml_reserved.contains s) &&
  decide (s ≠ "null") && decide (s ≠ "True") && decide (s ≠ "False") &&
  decide (s ≠ "[]") && decide (s ≠ "{}") &&
  decide (str_to_int? s = none) && decide (strip_apos s = s)

/-- An int whose rendered text parses back to it, carried as a checkable
condition to keep the development independent of digit-printing
internals. -/
def int_wf (n : Int) : Bool :=
  decide (str_to_int? (toString n) = some n) &&
  (toString n).data.all (fun c => decide (c ≠ '\n')) &&
  decide (toString n ≠ "null") && decide (toString n ≠ "True") &&
  decide (toString n ≠ "False") && decide (toString n ≠ "[]") &&
  decide (toString n ≠ "{}")

/-- A list item that str()-renders on its block line and parses back:
ints, booleans, plain strings. -/
def item_wf : Val → Bool
  | Val.vint n => int_wf n
  | Val.vbool _ => true
  | Val.vstr s => plain_str_wf s
  | _ => false

/-- A key that the dump renders as itself and that a YAML loader reads
back verbatim as a string key: exactly the conditions of a round-trip
clean plain string scalar (so in particular no comment or sequence
introducer, no trailing space, no reserved word such as yes, and no
numeric look). -/
def key_wf (k : String) : Bool := plain_str_wf k

/- The round-trip well-formedness of claim C9 (amended): keys as above
and pairwise distinct among siblings (an association list with a repeated
key denotes no Python mapping); scalar leaves that render cleanly;
non-empty sub-mappings only; lists of well-formed items. -/
mutual
def val_wf : Val → Bool
  | Val.vnull => true
  | Val.vbool _ => true
  | Val.vint n => int_wf n
  | Val.vstr s => plain_str_wf s
  | Val.vlist xs => xs.all item_wf
  | Val.vmap es => !es.isEmpty && entries_wf es
def entries_wf : List (String × Val) → Bool
  | [] => true
  | (k, v) :: rest => key_wf k && val_wf v && entries_wf rest &&
      (rest.map Prod.fst).all (fun k2 => decide (k2 ≠ k))
end

/-- The physical text lines of the rendering, one list element per line
of the final document (get_data_lines packs nested blocks and list
blocks inside single elements with embedded newlines; this is the
flattened view the text actually shows). -/
def flat_lines (lev : Nat) : Dict → List String
  | [] => []
  | (k, Val.vmap (e :: es)) :: rest =>
      render_header lev k ::
        (flat_lines (lev + 1) (e :: es) ++ flat_lines lev rest)
  | (k, Val.vlist (x :: xs)) :: rest =>
      (spaces lev ++ strip_apos k ++ ":" ++ " ") ::
        ((x :: xs).map (fun i => spaces lev ++ " - " ++ pystr i) ++
          flat_lines lev rest)
  | (k, v) :: rest => render_withval lev k v :: flat_lines lev rest
  termination_by d => sizeOf d
  decreasing_by all_goals (simp_wf; try omega)

theorem split_nl_chars_ne_nil (cs : List Char) :
    split_nl_chars cs ≠ [] := by
  induction cs with
  | nil => simp [split_nl_chars]
  | cons c rest ih =>
    simp only [split_nl_chars]
    by_cases h : c = '\n'
    · simp [h]
    · rw [if_neg h]
      cases split_nl_chars rest <;> simp

theorem split_nl_chars_append (as bs : List Char) :
    split_nl_chars (as ++ '\n' :: bs) =
      split_nl_chars as ++ split_nl_chars bs := by
  induction as with
  | nil => simp [split_nl_chars]
  | cons c rest ih =>
    by_cases hc : c = '\n'
    · subst hc
      simp [split_nl_chars, ih]
    · simp only [List.cons_append, split_nl_chars, if_neg hc,
        List.append_eq]
      rw [ih]
      cases hrest : split_nl_chars rest with
      | nil => exact absurd hrest (split_nl_chars_ne_nil rest)
      | cons h t => simp

theorem split_nl_chars_no_nl (cs : List Char)
    (h : ∀ c ∈ cs, c ≠ '\n') : split_nl_chars cs = [cs] := by
  induction cs with
  | nil => rfl
  | cons c rest ih =>
    have hc : c ≠ '\n' := h c (List.mem_cons_self _ _)
    simp only [split_nl_chars]
    rw [if_neg (by exact_mod_cast hc)]
    rw [ih fun c2 hc2 => h c2 (List.mem_cons_of_mem _ hc2)]

/-- A string free of newline characters. -/
def no_nl (s : String) : Prop := ∀ c ∈ s.data, c ≠ '\n'

theorem split_nl_join (ls : List String) (hne : ls ≠ [])
    (h : ∀ l ∈ ls, no_nl l) : split_nl (join_nl ls) = ls := by
  induction ls with
  | nil => exact absurd rfl hne
  | cons x rest ih =>
    cases rest with
    | nil =>
      show (split_nl_chars x.data).map (fun cs => String.mk cs) = [x]
      rw [split_nl_chars_no_nl x.data (h x (List.mem_cons_self _ _))]
      rfl
    | cons y rest2 =>
      have hdata : (join_nl (x :: y :: rest2)).data =
          x.data ++ '\n' :: (join_nl (y :: rest2)).data := by
        show (x ++ "\n" ++ join_nl (y :: rest2)).data = _
        simp [String.data_append]
      show (split_nl_chars (join_nl (x :: y :: rest2)).data).map
          (fun cs => String.mk cs) = _
      rw [hdata, split_nl_chars_append,
        split_nl_chars_no_nl x.data (h x (List.mem_cons_self _ _))]
      have hrest := ih (by simp)
        (fun l hl => h l (List.mem_cons_of_mem _ hl))
      simp only [List.map_append, List.map_cons, List.map_nil]
      rw [show [String.mk x.data] = [x] from rfl]
      rw [show (split_nl_chars (join_nl (y :: rest2)).data).map
        (fun cs => String.mk cs) = split_nl (join_nl (y :: rest2)) from
        rfl, hrest]
      rfl

theorem parse_scalar_int (n : Int) (h : int_wf n = true) :
    parse_scalar (toString n) = Val.vint n := by
  simp only [int_wf, Bool.and_eq_true, decide_eq_true_eq] at h
  obtain ⟨⟨⟨⟨⟨⟨hinv, hnl⟩, h1⟩, h2⟩, h3⟩, h4⟩, h5⟩ := h
  simp [parse_scalar, h1, h2, h3, h4, h5, hinv]

theorem parse_scalar_str (s : String) (h : plain_str_wf s = true) :
    parse_scalar s = Val.vstr s := by
  simp only [plain_str_wf, Bool.and_eq_true, decide_eq_true_eq] at h
  obtain ⟨⟨⟨⟨⟨⟨⟨⟨⟨⟨⟨hne, hchars⟩, hhead⟩, hlast⟩, hres⟩, h1⟩, h2⟩,
    h3⟩, h4⟩, h5⟩, hint⟩, hstrip⟩ := h
  simp [parse_scalar, h1, h2, h3, h4, h5, hint]

theorem strip_indent_replicate (n m : Nat) (cs : List Char) :
    strip_indent (n + m) (List.replicate n ' ' ++ cs) =
      strip_indent m cs := by
  induction n with
  | zero => simp
  | succ k ih =>
    rw [Nat.succ_add, List.replicate_succ]
    show strip_indent (k + m + 1) (' ' :: (List.replicate k ' ' ++ cs)) = _
    rw [strip_indent, if_pos rfl, ih]

theorem strip_indent_none_mono (n m : Nat) (cs : List Char)
    (h : strip_indent n cs = none) : strip_indent (n + m) cs = none := by
  induction n generalizing cs with
  | zero => simp [strip_indent] at h
  | succ k ih =>
    cases cs with
    | nil =>
      rw [Nat.succ_add]
      rfl
    | cons c cs2 =>
      rw [strip_indent] at h
      by_cases hc : c = ' '
      · rw [if_pos hc] at h
        rw [Nat.succ_add]
        rw [strip_indent, if_pos hc]
        exact ih cs2 h
      · rw [Nat.succ_add]
        rw [strip_indent, if_neg hc]

theorem strip_indent_nil_succ (n m : Nat) (cs : List Char)
    (h : strip_indent n cs = some []) :
    strip_indent (n + (m + 1)) cs = none := by
  induction n generalizing cs with
  | zero =>
    simp [strip_indent] at h
    subst h
    rfl
  | succ k ih =>
    cases cs with
    | nil => simp [strip_indent] at h
    | cons c cs2 =>
      rw [strip_indent] at h
      by_cases hc : c = ' '
      · rw [if_pos hc] at h
        rw [Nat.succ_add, strip_indent, if_pos hc]
        exact ih cs2 h
      · rw [if_neg hc] at h
        cases h

theorem split_colon_append (kcs after : List Char)
    (h : ∀ c ∈ kcs, c ≠ ':') :
    split_colon (kcs ++ ':' :: after) = some (kcs, after) := by
  induction kcs with
  | nil => simp [split_colon]
  | cons c rest ih =>
    have hc : c ≠ ':' := h c (List.mem_cons_self _ _)
    simp only [List.cons_append, split_colon, if_neg hc, List.append_eq]
    rw [ih fun c2 hc2 => h c2 (List.mem_cons_of_mem _ hc2)]

/-- A line list that cannot continue a mapping block at the given level:
empty, or a first line that is exhausted (or hits a non-space) within the
level's indentation. -/
def stops_strong (lev : Nat) : List String → Prop
  | [] => True
  | l :: _ => strip_indent (2 * lev) l.data = none ∨
      strip_indent (2 * lev) l.data = some []

theorem stops_strong_succ (lev : Nat) (suffix : List String)
    (h : stops_strong lev suffix) : stops_strong (lev + 1) suffix := by
  cases suffix with
  | nil => trivial
  | cons l rest =>
    rcases h with h | h
    · exact Or.inl (by
        rw [show 2 * (lev + 1) = 2 * lev + 2 from by omega]
        exact strip_indent_none_mono _ _ _ h)
    · exact Or.inl (by
        rw [show 2 * (lev + 1) = 2 * lev + (1 + 1) from by omega]
        exact strip_indent_nil_succ _ _ _ h)

theorem parse_map_stop (lev : Nat) (suffix : List String)
    (h : stops_strong lev suffix) :
    parse_map lev suffix = some ([], ⟨suffix, Nat.le_refl _⟩) := by
  cases suffix with
  | nil => simp [parse_map]
  | cons l rest =>
    rcases h with h | h <;> simp [parse_map, h]

/-- A line list that cannot continue a list-item block at the given
level: empty, or a first line that does not carry the " - " item prefix
there. -/
def items_stop (lev : Nat) : List String → Prop
  | [] => True
  | l :: _ => strip_indent (2 * lev) l.data = none ∨
      strip_indent (2 * lev) l.data = some [] ∨
      (∃ c cs, strip_indent (2 * lev) l.data = some (c :: cs) ∧ c ≠ ' ')

theorem parse_items_stop (lev : Nat) (suffix : List String)
    (h : items_stop lev suffix) :
    parse_items lev suffix = ([], ⟨suffix, Nat.le_refl _⟩) := by
  cases suffix with
  | nil => simp [parse_items]
  | cons l rest =>
    rcases h with h | h | ⟨c, cs, h, hc⟩
    · simp [parse_items, h]
    · simp [parse_items, h]
    · simp [parse_items, h, hc]

theorem stops_strong_items_stop (lev : Nat) (suffix : List String)
    (h : stops_strong lev suffix) : items_stop lev suffix := by
  cases suffix with
  | nil => trivial
  | cons l rest =>
    rcases h with h | h
    · exact Or.inl h
    · exact Or.inr (Or.inl h)

theorem parse_scalar_item (v : Val) (h : item_wf v = true) :
    parse_scalar (pystr v) = v := by
  cases v with
  | vint n => exact parse_scalar_int n (by simpa [item_wf] using h)
  | vbool b => cases b <;> rfl
  | vstr s => exact parse_scalar_str s (by simpa [item_wf] using h)
  | vnull => simp [item_wf] at h
  | vlist xs => simp [item_wf] at h
  | vmap es => simp [item_wf] at h

theorem parse_items_render (lev : Nat) (items : List Val)
    (suffix : List String) (hwf : items.all item_wf = true)
    (hstop : items_stop lev suffix) :
    parse_items lev
      (items.map (fun i => spaces lev ++ " - " ++ pystr i) ++ suffix) =
      (items, ⟨suffix, by simp⟩) := by
  induction items with
  | nil =>
    simp only [List.map_nil, List.nil_append]
    rw [parse_items_stop lev suffix hstop]
  | cons x xs ih =>
    rw [List.all_cons, Bool.and_eq_true] at hwf
    have hx : item_wf x = true := hwf.1
    have hxs : xs.all item_wf = true := hwf.2
    have hdata : (spaces lev ++ " - " ++ pystr x).data =
        List.replicate (2 * lev) ' ' ++
          (' ' :: '-' :: ' ' :: (pystr x).data) := by
      simp [String.data_append, spaces]
    have hstrip : strip_indent (2 * lev)
        (spaces lev ++ " - " ++ pystr x).data =
        some (' ' :: '-' :: ' ' :: (pystr x).data) := by
      rw [hdata]
      have := strip_indent_replicate (2 * lev) 0
        (' ' :: '-' :: ' ' :: (pystr x).data)
      simpa using this
    simp only [List.map_cons, List.cons_append, parse_items, hstrip,
      List.append_eq]
    have heta : parse_scalar ⟨(pystr x).data⟩ = x := by
      rw [show (⟨(pystr x).data⟩ : String) = pystr x from rfl]
      exact parse_scalar_item x hx
    have h1 := congrArg Prod.fst (ih hxs)
    have h2 := congrArg (fun q => q.2.1) (ih hxs)
    simp only at h1 h2
    rw [Prod.ext_iff]
    refine ⟨?_, Subtype.ext ?_⟩
    · rw [heta]
      simp [h1]
    · simpa using h2

theorem no_nl_append (a b : String) (ha : no_nl a) (hb : no_nl b) :
    no_nl (a ++ b) := by
  intro c hc
  rw [String.data_append] at hc
  rcases List.mem_append.mp hc with h | h
  · exact ha c h
  · exact hb c h

theorem no_nl_spaces (lev : Nat) : no_nl (spaces lev) := by
  intro c hc
  have : c = ' ' := List.eq_of_mem_replicate hc
  subst this
  decide

theorem no_nl_of_lit (s : String)
    (h : s.data.all (fun c => decide (c ≠ '\n')) = true) : no_nl s := by
  intro c hc
  have := List.all_eq_true.mp h c hc
  simpa using this

theorem plain_str_wf_no_nl (s : String) (h : plain_str_wf s = true) :
    no_nl s := by
  simp only [plain_str_wf, Bool.and_eq_true] at h
  intro c hc
  have := List.all_eq_true.mp h.1.1.1.1.1.1.1.1.1.1.2 c hc
  simp only [Bool.and_eq_true, decide_eq_true_eq] at this
  exact this.1.1.1.1.1

theorem plain_str_wf_strip (s : String) (h : plain_str_wf s = true) :
    strip_apos s = s := by
  simp only [plain_str_wf, Bool.and_eq_true, decide_eq_true_eq] at h
  exact h.2

theorem key_wf_no_nl (k : String) (h : key_wf k = true) : no_nl k :=
  plain_str_wf_no_nl k h

theorem key_wf_strip (k : String) (h : key_wf k = true) :
    strip_apos k = k :=
  plain_str_wf_strip k h

theorem int_wf_no_nl (n : Int) (h : int_wf n = true) :
    no_nl (toString n) := by
  simp only [int_wf, Bool.and_eq_true] at h
  exact no_nl_of_lit _ h.1.1.1.1.1.2

theorem pystr_item_no_nl (v : Val) (h : item_wf v = true) :
    no_nl (pystr v) := by
  cases v with
  | vint n => exact int_wf_no_nl n (by simpa [item_wf] using h)
  | vbool b =>
    cases b
    · exact no_nl_of_lit "False" (by decide)
    · exact no_nl_of_lit "True" (by decide)
  | vstr s => exact plain_str_wf_no_nl s (by simpa [item_wf] using h)
  | vnull => simp [item_wf] at h
  | vlist xs => simp [item_wf] at h
  | vmap es => simp [item_wf] at h

/-- The rendered value text of a well-formed non-list, non-nested-map
scalar: newline-free. -/
theorem scalar_text_no_nl (lev : Nat) (k : String) (v : Val)
    (hk : key_wf k = true) (hv : val_wf v = true)
    (hscal : (∀ m, v ≠ Val.vmap m) ∨ v = Val.vmap [])
    (hlist : ∀ x xs, v ≠ Val.vlist (x :: xs)) :
    no_nl (render_withval lev k v) := by
  have hbase : no_nl (spaces lev ++ strip_apos k ++ ":" ++ " ") := by
    refine no_nl_append _ _ (no_nl_append _ _ (no_nl_append _ _
      (no_nl_spaces lev) ?_) ?_) ?_
    · rw [key_wf_strip k hk]
      exact key_wf_no_nl k hk
    · exact no_nl_of_lit ":" (by decide)
    · exact no_nl_of_lit " " (by decide)
  have hshape : ∀ T, no_nl T →
      no_nl (spaces lev ++ strip_apos k ++ ":" ++ " " ++ T) := by
    intro T hT
    exact no_nl_append _ _ hbase hT
  cases v with
  | vnull =>
    show no_nl (spaces lev ++ strip_apos k ++ ":" ++ " " ++ "null")
    exact hshape _ (no_nl_of_lit "null" (by decide))
  | vbool b =>
    show no_nl (spaces lev ++ strip_apos k ++ ":" ++ " " ++
      custom_repr (Val.vbool b) (spaces lev))
    refine hshape _ ?_
    cases b
    · exact no_nl_of_lit "False" (by decide)
    · exact no_nl_of_lit "True" (by decide)
  | vint n =>
    refine hshape _ ?_
    show no_nl (toString n)
    exact int_wf_no_nl n (by simpa [val_wf] using hv)
  | vstr s =>
    refine hshape _ ?_
    show no_nl (strip_apos s)
    rw [plain_str_wf_strip s (by simpa [val_wf] using hv)]
    exact plain_str_wf_no_nl s (by simpa [val_wf] using hv)
  | vlist xs =>
    cases xs with
    | nil =>
      refine hshape _ ?_
      show no_nl (py_repr (Val.vlist []))
      rw [py_repr]
      simp only [List.attach_nil, List.map_nil]
      refine no_nl_append _ _ (no_nl_append _ _ ?_ ?_) ?_
      · exact no_nl_of_lit "[" (by decide)
      · exact no_nl_of_lit "" (by decide)
      · exact no_nl_of_lit "]" (by decide)
    | cons x xs2 => exact absurd rfl (hlist x xs2)
  | vmap es =>
    rcases hscal with h | h
    · exact absurd rfl (h es)
    · cases h
      refine hshape _ ?_
      show no_nl (py_repr (Val.vmap []))
      rw [py_repr]
      simp only [List.attach_nil, List.map_nil]
      refine no_nl_append _ _ (no_nl_append _ _ ?_ ?_) ?_
      · exact no_nl_of_lit "\x7b" (by decide)
      · exact no_nl_of_lit "" (by decide)
      · exact no_nl_of_lit "\x7d" (by decide)

theorem no_nl_header (lev : Nat) (k : String) (hk : key_wf k = true) :
    no_nl (render_header lev k) := by
  refine no_nl_append _ _ (no_nl_append _ _ (no_nl_spaces lev) ?_) ?_
  · rw [key_wf_strip k hk]
    exact key_wf_no_nl k hk
  · exact no_nl_of_lit ":" (by decide)

theorem split_nl_single (a : String) (h : no_nl a) : split_nl a = [a] := by
  unfold split_nl
  rw [split_nl_chars_no_nl a.data h]
  rfl

theorem split_nl_cat (a b : String) :
    split_nl (a ++ "\n" ++ b) = split_nl a ++ split_nl b := by
  unfold split_nl
  have hd : (a ++ "\n" ++ b).data = a.data ++ '\n' :: b.data := by
    simp [String.data_append]
  rw [hd, split_nl_chars_append, List.map_append]

theorem join_nl_append (xs ys : List String) (hxs : xs ≠ [])
    (hys : ys ≠ []) :
    join_nl (xs ++ ys) = join_nl xs ++ "\n" ++ join_nl ys := by
  induction xs with
  | nil => exact absurd rfl hxs
  | cons x rest ih =>
    cases rest with
    | nil =>
      cases ys with
      | nil => exact absurd rfl hys
      | cons y t => rfl
    | cons x2 rest2 =>
      show x ++ "\n" ++ join_nl (x2 :: (rest2 ++ ys)) = _
      rw [show (x2 :: rest2) ++ ys = x2 :: (rest2 ++ ys) from rfl] at ih
      rw [ih (by simp),
        show join_nl (x :: x2 :: rest2) =
          x ++ "\n" ++ join_nl (x2 :: rest2) from rfl]
      simp [String.append_assoc]

theorem split_nl_block (pre : String) (texts : List String)
    (hpre : no_nl pre) (ht : ∀ t ∈ texts, no_nl t) (hne : texts ≠ []) :
    split_nl (pre ++ join_sep ("\n" ++ pre) texts) =
      texts.map (fun t => pre ++ t) := by
  induction texts with
  | nil => exact absurd rfl hne
  | cons t rest ih =>
    cases rest with
    | nil =>
      show split_nl (pre ++ t) = [pre ++ t]
      exact split_nl_single _
        (no_nl_append _ _ hpre (ht t (List.mem_cons_self _ _)))
    | cons t2 rest2 =>
      have hshape : pre ++ join_sep ("\n" ++ pre) (t :: t2 :: rest2) =
          (pre ++ t) ++ "\n" ++
            (pre ++ join_sep ("\n" ++ pre) (t2 :: rest2)) := by
        show pre ++ (t ++ ("\n" ++ pre) ++
          join_sep ("\n" ++ pre) (t2 :: rest2)) = _
        apply String.ext
        simp [String.data_append]
      rw [hshape, split_nl_cat,
        split_nl_single _
          (no_nl_append _ _ hpre (ht t (List.mem_cons_self _ _))),
        ih (fun t3 h3 => ht t3 (List.mem_cons_of_mem _ h3)) (by simp)]
      rfl

theorem get_data_lines_ne_nil (k : String) (v : Val) (rest : Dict)
    (lev : Nat) : get_data_lines ((k, v) :: rest) lev ≠ [] := by
  cases v with
  | vmap es =>
    cases es with
    | nil => simp [get_data_lines]
    | cons e es2 => simp [get_data_lines]
  | vnull => simp [get_data_lines]
  | vbool b => simp [get_data_lines]
  | vint n => simp [get_data_lines]
  | vstr s => simp [get_data_lines]
  | vlist xs => simp [get_data_lines]

theorem join_nl_one (a : String) : join_nl [a] = a := rfl

theorem join_nl_cons (a : String) (l : List String) (h : l ≠ []) :
    join_nl (a :: l) = a ++ "\n" ++ join_nl l := by
  cases l with
  | nil => exact absurd rfl h
  | cons b t => rfl

theorem join_nl_cons2 (a b : String) (l : List String) :
    join_nl (a :: b :: l) = a ++ "\n" ++ join_nl (b :: l) := rfl

theorem split_join_cons (a : String) (ha : no_nl a) (l fl : List String)
    (h : (l = [] ∧ fl = []) ∨
      (l ≠ [] ∧ split_nl (join_nl l) = fl)) :
    split_nl (join_nl (a :: l)) = a :: fl := by
  rcases h with ⟨h1, h2⟩ | ⟨h1, h2⟩
  · subst h1
    subst h2
    exact split_nl_single a ha
  · rw [join_nl_cons a l h1, split_nl_cat, split_nl_single a ha, h2]
    rfl

theorem no_nl_listhead (lev : Nat) (k : String) (hk : key_wf k = true) :
    no_nl (spaces lev ++ strip_apos k ++ ":" ++ " ") := by
  refine no_nl_append _ _ (no_nl_append _ _ (no_nl_append _ _
    (no_nl_spaces lev) ?_) ?_) ?_
  · rw [key_wf_strip k hk]
    exact key_wf_no_nl k hk
  · exact no_nl_of_lit ":" (by decide)
  · exact no_nl_of_lit " " (by decide)

/- The physical-line view, by induction on a size bound: for a
well-formed non-empty mapping, splitting the newline-joined
get_data_lines elements on newlines gives exactly the flattened line
list. -/
theorem flat_eq_aux : ∀ (n : Nat) (d : Dict) (lev : Nat),
    sizeOf d ≤ n → entries_wf d = true → d ≠ [] →
    split_nl (join_nl (get_data_lines d lev)) = flat_lines lev d := by
  intro n
  induction n with
  | zero =>
    intro d lev hsz hwf hne
    cases d with
    | nil => exact absurd rfl hne
    | cons e rest =>
      exfalso
      simp at hsz
  | succ m ih =>
    intro d lev hsz hwf hne
    cases d with
    | nil => exact absurd rfl hne
    | cons e rest =>
      obtain ⟨k, v⟩ := e
      simp only [entries_wf, Bool.and_eq_true] at hwf
      obtain ⟨⟨⟨hk, hv⟩, hrest⟩, hnd⟩ := hwf
      have hszr : sizeOf rest ≤ m := by
        simp at hsz
        omega
      have hcond : (get_data_lines rest lev = [] ∧ flat_lines lev rest = []) ∨
          (get_data_lines rest lev ≠ [] ∧
            split_nl (join_nl (get_data_lines rest lev)) =
              flat_lines lev rest) := by
        cases rest with
        | nil =>
          exact Or.inl ⟨by simp [get_data_lines], by simp [flat_lines]⟩
        | cons r rs =>
          obtain ⟨rk, rv⟩ := r
          exact Or.inr ⟨get_data_lines_ne_nil rk rv rs lev,
            ih ((rk, rv) :: rs) lev hszr hrest (by simp)⟩
      cases v with
      | vnull =>
        simp only [get_data_lines, flat_lines]
        exact split_join_cons _ (scalar_text_no_nl lev k Val.vnull hk hv
          (Or.inl fun m2 hm => Val.noConfusion hm)
          (fun x xs hx => Val.noConfusion hx)) _ _ hcond
      | vbool b =>
        simp only [get_data_lines, flat_lines]
        exact split_join_cons _ (scalar_text_no_nl lev k (Val.vbool b) hk hv
          (Or.inl fun m2 hm => Val.noConfusion hm)
          (fun x xs hx => Val.noConfusion hx)) _ _ hcond
      | vint n2 =>
        simp only [get_data_lines, flat_lines]
        exact split_join_cons _ (scalar_text_no_nl lev k (Val.vint n2) hk hv
          (Or.inl fun m2 hm => Val.noConfusion hm)
          (fun x xs hx => Val.noConfusion hx)) _ _ hcond
      | vstr str =>
        simp only [get_data_lines, flat_lines]
        exact split_join_cons _ (scalar_text_no_nl lev k (Val.vstr str) hk hv
          (Or.inl fun m2 hm => Val.noConfusion hm)
          (fun x xs hx => Val.noConfusion hx)) _ _ hcond
      | vlist xs =>
        cases xs with
        | nil =>
          simp only [get_data_lines, flat_lines]
          exact split_join_cons _
            (scalar_text_no_nl lev k (Val.vlist []) hk hv
              (Or.inl fun m2 hm => Val.noConfusion hm)
              (fun x xs2 hx => by simp at hx)) _ _ hcond
        | cons x xs2 =>
          simp only [get_data_lines, flat_lines]
          have hitems : ∀ i ∈ x :: xs2, item_wf i = true := by
            simp only [val_wf] at hv
            exact fun i hi => List.all_eq_true.mp hv i hi
          have hsep : ("\n" ++ spaces lev ++ " - " : String) =
              "\n" ++ (spaces lev ++ " - ") := by
            rw [String.append_assoc]
          have hassoc : render_withval lev k (Val.vlist (x :: xs2)) =
              (spaces lev ++ strip_apos k ++ ":" ++ " ") ++ "\n" ++
                ((spaces lev ++ " - ") ++
                  join_sep ("\n" ++ (spaces lev ++ " - "))
                    ((x :: xs2).map pystr)) := by
            show spaces lev ++ strip_apos k ++ ":" ++ " " ++
                ("\n" ++ spaces lev ++ " - " ++
                  join_sep ("\n" ++ spaces lev ++ " - ")
                    ((x :: xs2).map pystr)) = _
            rw [hsep]
            simp only [String.append_assoc]
          have hblock : split_nl ((spaces lev ++ " - ") ++
              join_sep ("\n" ++ (spaces lev ++ " - "))
                ((x :: xs2).map pystr)) =
              ((x :: xs2).map pystr).map
                (fun t => (spaces lev ++ " - ") ++ t) := by
            refine split_nl_block _ _ ?_ ?_ (by simp)
            · exact no_nl_append _ _ (no_nl_spaces lev)
                (no_nl_of_lit " - " (by decide))
            · intro t ht
              rcases List.mem_map.mp ht with ⟨i, hi, rfl⟩
              exact pystr_item_no_nl i (hitems i hi)
          rcases hcond with ⟨h1, h2⟩ | ⟨h1, h2⟩
          · rw [h1, h2, join_nl_one, hassoc, split_nl_cat,
              split_nl_single _ (no_nl_listhead lev k hk), hblock]
            simp [List.map_map]
          · rw [join_nl_cons _ _ h1, hassoc, split_nl_cat, split_nl_cat,
              split_nl_single _ (no_nl_listhead lev k hk), hblock, h2]
            simp [List.map_map]
      | vmap es =>
        cases es with
        | nil => simp [val_wf] at hv
        | cons e2 es2 =>
          simp only [get_data_lines, flat_lines]
          have hsubwf : entries_wf (e2 :: es2) = true := by
            simp only [val_wf, Bool.and_eq_true] at hv
            exact hv.2
          have hszsub : sizeOf (e2 :: es2) ≤ m := by
            simp at hsz ⊢
            omega
          have hsub := ih (e2 :: es2) (lev + 1) hszsub hsubwf (by simp)
          rcases hcond with ⟨h1, h2⟩ | ⟨h1, h2⟩
          · rw [h1, h2, join_nl_cons2, join_nl_one, split_nl_cat,
              split_nl_single _ (no_nl_header lev k hk), hsub]
            simp
          · rw [join_nl_cons2, join_nl_cons _ _ h1, split_nl_cat,
              split_nl_cat, split_nl_single _ (no_nl_header lev k hk),
              hsub, h2]
            simp

theorem flat_eq (d : Dict) (lev : Nat) (hwf : entries_wf d = true)
    (hne : d ≠ []) :
    split_nl (join_nl (get_data_lines d lev)) = flat_lines lev d :=
  flat_eq_aux (sizeOf d) d lev (Nat.le_refl _) hwf hne

theorem strip_indent_more (n m : Nat) (cs : List Char) (c : Char)
    (cs2 : List Char) (h : strip_indent n cs = some (c :: cs2))
    (hc : c ≠ ' ') : strip_indent (n + (m + 1)) cs = none := by
  induction n generalizing cs with
  | zero =>
    simp [strip_indent] at h
    subst h
    rw [Nat.zero_add]
    show strip_indent (m + 1) (c :: cs2) = none
    rw [strip_indent, if_neg hc]
  | succ j ih =>
    cases cs with
    | nil => simp [strip_indent] at h
    | cons a as =>
      rw [strip_indent] at h
      by_cases ha : a = ' '
      · rw [if_pos ha] at h
        rw [Nat.succ_add, strip_indent, if_pos ha]
        exact ih as h
      · rw [if_neg ha] at h
        cases h

theorem key_wf_shape (k : String) (hk : key_wf k = true) :
    ∃ c0 krest, k.data = c0 :: krest ∧ c0 ≠ ' ' ∧
      (∀ c ∈ k.data, c ≠ ':') := by
  simp only [key_wf, plain_str_wf, Bool.and_eq_true, decide_eq_true_eq]
    at hk
  obtain ⟨⟨⟨⟨⟨⟨⟨⟨⟨⟨⟨hne, hchars⟩, hhead⟩, hlast⟩, hres⟩, h1⟩, h2⟩,
    h3⟩, h4⟩, h5⟩, hint⟩, hstrip⟩ := hk
  cases hkd : k.data with
  | nil =>
    exact absurd (String.ext (by rw [hkd])) hne
  | cons c0 krest =>
    refine ⟨c0, krest, rfl, ?_, ?_⟩
    · rw [hkd] at hhead
      simp only [List.head?_cons] at hhead
      intro h0
      subst h0
      exact absurd hhead (by decide)
    · intro c hc
      have hc2 : c ∈ k.data := by
        rw [hkd]
        exact hc
      have := List.all_eq_true.mp hchars c hc2
      simp only [Bool.and_eq_true, decide_eq_true_eq] at this
      exact this.1.1.1.1.2

theorem strip_line (lev : Nat) (k : String) (more : List Char)
    (l : String) (hk : key_wf k = true)
    (hl : l.data = List.replicate (2 * lev) ' ' ++ (k.data ++ ':' :: more)) :
    ∃ c cs, strip_indent (2 * lev) l.data = some (c :: cs) ∧ c ≠ ' ' := by
  obtain ⟨c0, krest, hkd, hsp, hall⟩ := key_wf_shape k hk
  refine ⟨c0, krest ++ ':' :: more, ?_, hsp⟩
  rw [hl, hkd]
  have := strip_indent_replicate (2 * lev) 0
    ((c0 :: krest) ++ ':' :: more)
  simpa using this

/- The first physical line of a rendered non-empty mapping block always
carries exactly the block's indentation, then the (non-space) first key
character, and a colon further on. -/
theorem flat_lines_strip (lev : Nat) (k : String) (v : Val) (rest : Dict)
    (suffix : List String) (hk : key_wf k = true) :
    ∃ l ls, flat_lines lev ((k, v) :: rest) ++ suffix = l :: ls ∧
      (':' ∈ l.data) ∧
      ∃ c cs, strip_indent (2 * lev) l.data = some (c :: cs) ∧ c ≠ ' ' := by
  have hks : strip_apos k = k := key_wf_strip k hk
  cases v with
  | vnull =>
    have hl : (render_withval lev k Val.vnull).data =
        List.replicate (2 * lev) ' ' ++
          (k.data ++ ':' :: (' ' :: ("null" : String).data)) := by
      simp [render_withval, spaces, String.data_append, hks]
    exact ⟨render_withval lev k Val.vnull, flat_lines lev rest ++ suffix,
      by simp [flat_lines], by rw [hl]; simp,
      strip_line lev k _ _ hk hl⟩
  | vbool b =>
    have hl : (render_withval lev k (Val.vbool b)).data =
        List.replicate (2 * lev) ' ' ++ (k.data ++ ':' ::
          (' ' :: (custom_repr (Val.vbool b) (spaces lev)).data)) := by
      simp [render_withval, spaces, String.data_append, hks]
    exact ⟨render_withval lev k (Val.vbool b),
      flat_lines lev rest ++ suffix, by simp [flat_lines],
      by rw [hl]; simp, strip_line lev k _ _ hk hl⟩
  | vint n =>
    have hl : (render_withval lev k (Val.vint n)).data =
        List.replicate (2 * lev) ' ' ++ (k.data ++ ':' ::
          (' ' :: (custom_repr (Val.vint n) (spaces lev)).data)) := by
      simp [render_withval, spaces, String.data_append, hks]
    exact ⟨render_withval lev k (Val.vint n),
      flat_lines lev rest ++ suffix, by simp [flat_lines],
      by rw [hl]; simp, strip_line lev k _ _ hk hl⟩
  | vstr str =>
    have hl : (render_withval lev k (Val.vstr str)).data =
        List.replicate (2 * lev) ' ' ++ (k.data ++ ':' ::
          (' ' :: (custom_repr (Val.vstr str) (spaces lev)).data)) := by
      simp [render_withval, spaces, String.data_append, hks]
    exact ⟨render_withval lev k (Val.vstr str),
      flat_lines lev rest ++ suffix, by simp [flat_lines],
      by rw [hl]; simp, strip_line lev k _ _ hk hl⟩
  | vlist xs =>
    cases xs with
    | nil =>
      have hl : (render_withval lev k (Val.vlist [])).data =
          List.replicate (2 * lev) ' ' ++ (k.data ++ ':' ::
            (' ' :: (custom_repr (Val.vlist []) (spaces lev)).data)) := by
        simp [render_withval, spaces, String.data_append, hks]
      exact ⟨render_withval lev k (Val.vlist []),
        flat_lines lev rest ++ suffix, by simp [flat_lines],
        by rw [hl]; simp, strip_line lev k _ _ hk hl⟩
    | cons x xs2 =>
      have hl : (spaces lev ++ strip_apos k ++ ":" ++ " ").data =
          List.replicate (2 * lev) ' ' ++ (k.data ++ ':' :: [' ']) := by
        simp [spaces, String.data_append, hks]
      exact ⟨spaces lev ++ strip_apos k ++ ":" ++ " ",
        (x :: xs2).map (fun i => spaces lev ++ " - " ++ pystr i) ++
          (flat_lines lev rest ++ suffix), by simp [flat_lines],
        by rw [hl]; simp, strip_line lev k _ _ hk hl⟩
  | vmap es =>
    cases es with
    | nil =>
      have hl : (render_withval lev k (Val.vmap [])).data =
          List.replicate (2 * lev) ' ' ++ (k.data ++ ':' ::
            (' ' :: (custom_repr (Val.vmap []) (spaces lev)).data)) := by
        simp [render_withval, spaces, String.data_append, hks]
      exact ⟨render_withval lev k (Val.vmap []),
        flat_lines lev rest ++ suffix, by simp [flat_lines],
        by rw [hl]; simp, strip_line lev k _ _ hk hl⟩
    | cons e2 es2 =>
      have hl : (render_header lev k).data =
          List.replicate (2 * lev) ' ' ++ (k.data ++ ':' :: []) := by
        simp [render_header, spaces, String.data_append, hks]
      exact ⟨render_header lev k,
        flat_lines (lev + 1) (e2 :: es2) ++
          (flat_lines lev rest ++ suffix), by simp [flat_lines],
        by rw [hl]; simp, strip_line lev k _ _ hk hl⟩

theorem flat_stops_strong (lev : Nat) (d : Dict) (suffix : List String)
    (hwf : entries_wf d = true) (hstop : stops_strong lev suffix) :
    stops_strong (lev + 1) (flat_lines lev d ++ suffix) := by
  cases d with
  | nil =>
    rw [show flat_lines lev [] = [] from by simp [flat_lines],
      List.nil_append]
    exact stops_strong_succ lev suffix hstop
  | cons e rest =>
    obtain ⟨k, v⟩ := e
    simp only [entries_wf, Bool.and_eq_true] at hwf
    obtain ⟨⟨⟨hk, hv⟩, hrest⟩, hnd⟩ := hwf
    obtain ⟨l, ls, hcons, hcolon, c, cs, hstrip, hc⟩ :=
      flat_lines_strip lev k v rest suffix hk
    rw [hcons]
    exact Or.inl (by
      rw [show 2 * (lev + 1) = 2 * lev + (1 + 1) from by omega]
      exact strip_indent_more (2 * lev) 1 l.data c cs hstrip hc)

theorem flat_items_stop (lev : Nat) (d : Dict) (suffix : List String)
    (hwf : entries_wf d = true) (hstop : items_stop lev suffix) :
    items_stop lev (flat_lines lev d ++ suffix) := by
  cases d with
  | nil =>
    rw [show flat_lines lev [] = [] from by simp [flat_lines],
      List.nil_append]
    exact hstop
  | cons e rest =>
    obtain ⟨k, v⟩ := e
    simp only [entries_wf, Bool.and_eq_true] at hwf
    obtain ⟨⟨⟨hk, hv⟩, hrest⟩, hnd⟩ := hwf
    obtain ⟨l, ls, hcons, hcolon, c, cs, hstrip, hc⟩ :=
      flat_lines_strip lev k v rest suffix hk
    rw [hcons]
    exact Or.inr (Or.inr ⟨c, cs, hstrip, hc⟩)

/-- Parsing lines yields the mapping d with exactly suf unconsumed. -/
def pm_result (lev : Nat) (lines : List String) (d : Dict)
    (suf : List String) : Prop :=
  ∃ h : suf.length ≤ lines.length,
    parse_map lev lines = some (d, ⟨suf, h⟩)

theorem pm_scalar (lev : Nat) (k t : String) (ls : List String)
    (d2 : Dict) (suf : List String) (hk : key_wf k = true)
    (htd : t.data ≠ []) (hcont : pm_result lev ls d2 suf) :
    pm_result lev ((spaces lev ++ k ++ ":" ++ " " ++ t) :: ls)
      ((k, parse_scalar t) :: d2) suf := by
  obtain ⟨hlen, heq⟩ := hcont
  obtain ⟨c0, krest, hkd, hsp, hall⟩ := key_wf_shape k hk
  have hdata : (spaces lev ++ k ++ ":" ++ " " ++ t).data =
      List.replicate (2 * lev) ' ' ++ (k.data ++ ':' :: ' ' :: t.data) := by
    simp [String.data_append, spaces]
  cases htd2 : t.data with
  | nil => exact absurd htd2 htd
  | cons c1 cr =>
    have hstrip : strip_indent (2 * lev)
        (spaces lev ++ k ++ ":" ++ " " ++ t).data =
        some (c0 :: (krest ++ ':' :: ' ' :: c1 :: cr)) := by
      rw [hdata, hkd, htd2]
      have := strip_indent_replicate (2 * lev) 0
        ((c0 :: krest) ++ ':' :: ' ' :: c1 :: cr)
      simpa using this
    have hsplit : split_colon (c0 :: (krest ++ ':' :: ' ' :: c1 :: cr)) =
        some (c0 :: krest, ' ' :: c1 :: cr) := by
      rw [show c0 :: (krest ++ ':' :: ' ' :: c1 :: cr) =
        (c0 :: krest) ++ ':' :: ' ' :: c1 :: cr from rfl]
      refine split_colon_append _ _ ?_
      intro c hc
      exact hall c (hkd ▸ hc)
    refine ⟨Nat.le_succ_of_le hlen, ?_⟩
    rw [parse_map.eq_def]
    simp only [hstrip, hsp, hsplit, heq, if_false]
    rw [show (⟨c0 :: krest⟩ : String) = k from by rw [← hkd],
      show (⟨c1 :: cr⟩ : String) = t from by rw [← htd2]]

theorem pm_list (lev : Nat) (k : String) (x : Val) (xs : List Val)
    (ls : List String) (d2 : Dict) (suf : List String)
    (hk : key_wf k = true) (hwf : (x :: xs).all item_wf = true)
    (hstop : items_stop lev ls) (hcont : pm_result lev ls d2 suf) :
    pm_result lev ((spaces lev ++ k ++ ":" ++ " ") ::
        ((x :: xs).map (fun i => spaces lev ++ " - " ++ pystr i) ++ ls))
      ((k, Val.vlist (x :: xs)) :: d2) suf := by
  obtain ⟨hlen, heq⟩ := hcont
  obtain ⟨c0, krest, hkd, hsp, hall⟩ := key_wf_shape k hk
  have hdata : (spaces lev ++ k ++ ":" ++ " ").data =
      List.replicate (2 * lev) ' ' ++ (k.data ++ [':', ' ']) := by
    simp [String.data_append, spaces]
  have hstrip : strip_indent (2 * lev)
      (spaces lev ++ k ++ ":" ++ " ").data =
      some (c0 :: (krest ++ [':', ' '])) := by
    rw [hdata, hkd]
    have := strip_indent_replicate (2 * lev) 0 ((c0 :: krest) ++ [':', ' '])
    simpa using this
  have hsplit : split_colon (c0 :: (krest ++ [':', ' '])) =
      some (c0 :: krest, [' ']) := by
    rw [show c0 :: (krest ++ [':', ' ']) = (c0 :: krest) ++ ':' :: [' ']
      from rfl]
    refine split_colon_append _ _ ?_
    intro c hc
    exact hall c (hkd ▸ hc)
  have hitems := parse_items_render lev (x :: xs) ls hwf hstop
  refine ⟨by simp only [List.length_cons, List.length_append]; omega, ?_⟩
  rw [parse_map.eq_def]
  simp only [hstrip, hsp, hsplit, if_false]
  rw [hitems]
  simp only [heq, List.isEmpty_cons, Bool.false_eq_true, if_false]
  rw [show (⟨c0 :: krest⟩ : String) = k from by rw [← hkd]]

theorem pm_map (lev : Nat) (k : String) (c0e : String × Val)
    (ces : Dict) (ls2 ls : List String) (d2 : Dict) (suf : List String)
    (hk : key_wf k = true)
    (hsub : pm_result (lev + 1) ls2 (c0e :: ces) ls)
    (hcont : pm_result lev ls d2 suf) :
    pm_result lev ((spaces lev ++ k ++ ":") :: ls2)
      ((k, Val.vmap (c0e :: ces)) :: d2) suf := by
  obtain ⟨hlen1, heq1⟩ := hsub
  obtain ⟨hlen2, heq2⟩ := hcont
  obtain ⟨c0, krest, hkd, hsp, hall⟩ := key_wf_shape k hk
  have hdata : (spaces lev ++ k ++ ":").data =
      List.replicate (2 * lev) ' ' ++ (k.data ++ [':']) := by
    simp [String.data_append, spaces]
  have hstrip : strip_indent (2 * lev) (spaces lev ++ k ++ ":").data =
      some (c0 :: (krest ++ [':'])) := by
    rw [hdata, hkd]
    have := strip_indent_replicate (2 * lev) 0 ((c0 :: krest) ++ [':'])
    simpa using this
  have hsplit : split_colon (c0 :: (krest ++ [':'])) =
      some (c0 :: krest, []) := by
    rw [show c0 :: (krest ++ [':']) = (c0 :: krest) ++ ':' :: [] from rfl]
    refine split_colon_append _ _ ?_
    intro c hc
    exact hall c (hkd ▸ hc)
  refine ⟨Nat.le_succ_of_le (Nat.le_trans hlen2 hlen1), ?_⟩
  rw [parse_map.eq_def]
  simp only [hstrip, hsp, hsplit, if_false]
  rw [heq1]
  simp only [heq2, List.isEmpty_cons, Bool.false_eq_true, if_false]
  rw [show (⟨c0 :: krest⟩ : String) = k from by rw [← hkd]]

/- The parser inverts the flattened rendering: parsing the physical
lines of a well-formed mapping block consumes exactly the block and
returns exactly the mapping, leaving the stopping suffix unconsumed. -/
theorem parse_flat_aux : ∀ (n : Nat) (d : Dict) (lev : Nat)
    (suffix : List String), sizeOf d ≤ n → entries_wf d = true →
    stops_strong lev suffix →
    pm_result lev (flat_lines lev d ++ suffix) d suffix := by
  intro n
  induction n with
  | zero =>
    intro d lev suffix hsz hwf hstop
    cases d with
    | nil =>
      rw [show flat_lines lev [] = [] from by simp [flat_lines],
        List.nil_append]
      exact ⟨Nat.le_refl _, parse_map_stop lev suffix hstop⟩
    | cons e rest =>
      exfalso
      simp at hsz
  | succ m ih =>
    intro d lev suffix hsz hwf hstop
    cases d with
    | nil =>
      rw [show flat_lines lev [] = [] from by simp [flat_lines],
        List.nil_append]
      exact ⟨Nat.le_refl _, parse_map_stop lev suffix hstop⟩
    | cons e rest =>
      obtain ⟨k, v⟩ := e
      simp only [entries_wf, Bool.and_eq_true] at hwf
      obtain ⟨⟨⟨hk, hv⟩, hrest⟩, hnd⟩ := hwf
      have hszr : sizeOf rest ≤ m := by
        simp at hsz
        omega
      have hrestres : pm_result lev (flat_lines lev rest ++ suffix)
          rest suffix := by
        cases rest with
        | nil =>
          rw [show flat_lines lev [] = [] from by simp [flat_lines],
            List.nil_append]
          exact ⟨Nat.le_refl _, parse_map_stop lev suffix hstop⟩
        | cons r rs => exact ih (r :: rs) lev suffix hszr hrest hstop
      cases v with
      | vnull =>
        simp only [flat_lines, List.cons_append]
        rw [show render_withval lev k Val.vnull =
            spaces lev ++ k ++ ":" ++ " " ++ "null" from by
          show spaces lev ++ strip_apos k ++ ":" ++ " " ++ "null" =
            spaces lev ++ k ++ ":" ++ " " ++ "null"
          rw [key_wf_strip k hk]]
        exact pm_scalar lev k "null" _ rest suffix hk (by decide) hrestres
      | vbool b =>
        simp only [flat_lines, List.cons_append]
        cases b
        · rw [show render_withval lev k (Val.vbool false) =
              spaces lev ++ k ++ ":" ++ " " ++ "False" from by
            show spaces lev ++ strip_apos k ++ ":" ++ " " ++
                custom_repr (Val.vbool false) (spaces lev) =
              spaces lev ++ k ++ ":" ++ " " ++ "False"
            rw [key_wf_strip k hk]
            rfl]
          exact pm_scalar lev k "False" _ rest suffix hk (by decide)
            hrestres
        · rw [show render_withval lev k (Val.vbool true) =
              spaces lev ++ k ++ ":" ++ " " ++ "True" from by
            show spaces lev ++ strip_apos k ++ ":" ++ " " ++
                custom_repr (Val.vbool true) (spaces lev) =
              spaces lev ++ k ++ ":" ++ " " ++ "True"
            rw [key_wf_strip k hk]
            rfl]
          exact pm_scalar lev k "True" _ rest suffix hk (by decide)
            hrestres
      | vint n2 =>
        simp only [flat_lines, List.cons_append]
        have hiwf : int_wf n2 = true := by simpa [val_wf] using hv
        have htd : (toString n2).data ≠ [] := by
          intro h0
          have h1 : toString n2 = "" := String.ext (by rw [h0])
          have h2 := parse_scalar_int n2 hiwf
          rw [h1] at h2
          have h3 : parse_scalar "" = Val.vstr "" := rfl
          rw [h3] at h2
          exact Val.noConfusion h2
        rw [show render_withval lev k (Val.vint n2) =
            spaces lev ++ k ++ ":" ++ " " ++ toString n2 from by
          show spaces lev ++ strip_apos k ++ ":" ++ " " ++
              custom_repr (Val.vint n2) (spaces lev) =
            spaces lev ++ k ++ ":" ++ " " ++ toString n2
          rw [key_wf_strip k hk]
          rfl]
        have hres := pm_scalar lev k (toString n2) _ rest suffix hk htd
          hrestres
        rw [parse_scalar_int n2 hiwf] at hres
        exact hres
      | vstr str =>
        simp only [flat_lines, List.cons_append]
        have hswf : plain_str_wf str = true := by simpa [val_wf] using hv
        have htd : str.data ≠ [] := by
          intro h0
          have h1 : str = "" := String.ext (by rw [h0])
          simp only [plain_str_wf, Bool.and_eq_true,
            decide_eq_true_eq] at hswf
          exact hswf.1.1.1.1.1.1.1.1.1.1.1 h1
        rw [show render_withval lev k (Val.vstr str) =
            spaces lev ++ k ++ ":" ++ " " ++ str from by
          show spaces lev ++ strip_apos k ++ ":" ++ " " ++
              strip_apos str =
            spaces lev ++ k ++ ":" ++ " " ++ str
          rw [key_wf_strip k hk, plain_str_wf_strip str hswf]]
        have hres := pm_scalar lev k str _ rest suffix hk htd hrestres
        rw [parse_scalar_str str hswf] at hres
        exact hres
      | vlist xs =>
        cases xs with
        | nil =>
          simp only [flat_lines, List.cons_append]
          have hpy : py_repr (Val.vlist []) = "[]" := by
            rw [py_repr]
            simp [join_sep]
          rw [show render_withval lev k (Val.vlist []) =
              spaces lev ++ k ++ ":" ++ " " ++ "[]" from by
            show spaces lev ++ strip_apos k ++ ":" ++ " " ++
                py_repr (Val.vlist []) =
              spaces lev ++ k ++ ":" ++ " " ++ "[]"
            rw [key_wf_strip k hk, hpy]]
          exact pm_scalar lev k "[]" _ rest suffix hk (by decide)
            hrestres
        | cons x xs2 =>
          simp only [flat_lines, List.cons_append, List.append_assoc]
          rw [key_wf_strip k hk]
          exact pm_list lev k x xs2 (flat_lines lev rest ++ suffix)
            rest suffix hk (by simpa [val_wf] using hv)
            (flat_items_stop lev rest suffix hrest
              (stops_strong_items_stop lev suffix hstop))
            hrestres
      | vmap es =>
        cases es with
        | nil => simp [val_wf] at hv
        | cons e2 es2 =>
          simp only [flat_lines, List.cons_append, List.append_assoc]
          rw [show render_header lev k = spaces lev ++ k ++ ":" from by
            show spaces lev ++ strip_apos k ++ ":" =
              spaces lev ++ k ++ ":"
            rw [key_wf_strip k hk]]
          have hsubwf : entries_wf (e2 :: es2) = true := by
            simp only [val_wf, Bool.and_eq_true] at hv
            exact hv.2
          have hszsub : sizeOf (e2 :: es2) ≤ m := by
            simp at hsz ⊢
            omega
          have hsub := ih (e2 :: es2) (lev + 1)
            (flat_lines lev rest ++ suffix) hszsub hsubwf
            (flat_stops_strong lev rest suffix hrest hstop)
          exact pm_map lev k e2 es2
            (flat_lines (lev + 1) (e2 :: es2) ++
              (flat_lines lev rest ++ suffix))
            (flat_lines lev rest ++ suffix) rest suffix hk hsub hrestres

theorem parse_flat (d : Dict) (lev : Nat) (suffix : List String)
    (hwf : entries_wf d = true) (hstop : stops_strong lev suffix) :
    pm_result lev (flat_lines lev d ++ suffix) d suffix :=
  parse_flat_aux (sizeOf d) d lev suffix (Nat.le_refl _) hwf hstop

theorem split_nl_chars_no_mem (cs : List Char) :
    ∀ p ∈ split_nl_chars cs, ∀ c ∈ p, c ≠ '\n' := by
  induction cs with
  | nil =>
    intro p hp
    simp [split_nl_chars] at hp
    subst hp
    simp
  | cons a as ih =>
    intro p hp c hc
    simp only [split_nl_chars] at hp
    by_cases ha : a = '\n'
    · rw [if_pos ha] at hp
      rcases List.mem_cons.mp hp with h | h
      · subst h
        simp at hc
      · exact ih p h c hc
    · rw [if_neg ha] at hp
      cases hrest : split_nl_chars as with
      | nil => exact absurd hrest (split_nl_chars_ne_nil as)
      | cons h0 t0 =>
        rw [hrest] at hp
        rcases List.mem_cons.mp hp with h | h
        · subst h
          rcases List.mem_cons.mp hc with h2 | h2
          · subst h2
            exact ha
          · exact ih h0 (by rw [hrest]; exact List.mem_cons_self _ _) c h2
        · exact ih p (by rw [hrest]; exact List.mem_cons_of_mem _ h) c hc

theorem split_nl_no_nl (s : String) : ∀ l ∈ split_nl s, no_nl l := by
  intro l hl
  unfold split_nl at hl
  rcases List.mem_map.mp hl with ⟨cs, hcs, rfl⟩
  intro c hc
  exact split_nl_chars_no_mem s.data cs hcs c hc

theorem flat_no_nl (d : Dict) (lev : Nat) (hwf : entries_wf d = true)
    (hne : d ≠ []) : ∀ l ∈ flat_lines lev d, no_nl l := by
  intro l hl
  rw [← flat_eq d lev hwf hne] at hl
  exact split_nl_no_nl _ l hl

theorem flat_lines_ne_nil (lev : Nat) (d : Dict)
    (hwf : entries_wf d = true) (hne : d ≠ []) :
    flat_lines lev d ≠ [] := by
  cases d with
  | nil => exact absurd rfl hne
  | cons e rest =>
    obtain ⟨k, v⟩ := e
    simp only [entries_wf, Bool.and_eq_true] at hwf
    obtain ⟨l, ls, hcons, _, _⟩ :=
      flat_lines_strip lev k v rest [] hwf.1.1.1
    rw [List.append_nil] at hcons
    rw [hcons]
    simp

theorem flat_first_ne (lev : Nat) (d : Dict) (suffix : List String)
    (hwf : entries_wf d = true) (hne : d ≠ []) :
    ∃ l ls, flat_lines lev d ++ suffix = l :: ls ∧ l ≠ "{}" := by
  cases d with
  | nil => exact absurd rfl hne
  | cons e rest =>
    obtain ⟨k, v⟩ := e
    simp only [entries_wf, Bool.and_eq_true] at hwf
    obtain ⟨l, ls, hcons, hcolon, _⟩ :=
      flat_lines_strip lev k v rest suffix hwf.1.1.1
    refine ⟨l, ls, hcons, ?_⟩
    intro h0
    subst h0
    revert hcolon
    decide

/- The modelled round trip for a non-empty well-formed mapping. -/
theorem roundtrip (d : Dict) (hwf : entries_wf d = true)
    (hne : d ≠ []) : load_model (to_yaml d) = some d := by
  have hyl : get_yaml_lines d = flat_lines 0 d := by
    unfold get_yaml_lines
    rw [if_neg (by
      cases d with
      | nil => exact absurd rfl hne
      | cons e r => simp)]
    rw [split_nl_cat,
      split_nl_single _ (no_nl_of_lit "YAMLConfigManager" (by decide)),
      flat_eq d 0 hwf hne]
    rfl
  have hsplit2 : split_nl (to_yaml d) = flat_lines 0 d ++ [""] := by
    unfold to_yaml
    rw [hyl,
      show join_nl (flat_lines 0 d) ++ "\n" =
        join_nl (flat_lines 0 d) ++ "\n" ++ "" from by
          rw [String.append_empty],
      split_nl_cat,
      split_nl_join (flat_lines 0 d) (flat_lines_ne_nil 0 d hwf hne)
        (flat_no_nl d 0 hwf hne)]
    rfl
  obtain ⟨l, ls, hcons, hlne⟩ := flat_first_ne 0 d [""] hwf hne
  obtain ⟨hlen, heqm⟩ := parse_flat d 0 [""] hwf (Or.inr rfl)
  unfold load_model
  rw [hsplit2, if_neg (by
    rw [hcons]
    intro hcontra
    exact hlne (Option.some.inj hcontra.1)), heqm]
  rfl

/-- C9 counterexample: the mapping {"a": "5"} has no empty sub-mapping,
yet dumping it renders the line "a: 5" and loading that back resolves
the scalar as the integer 5, not the string "5" — the round trip is not
the identity on this mapping. -/
theorem claim_C9_counterexample :
    load_model (to_yaml [("a", Val.vstr "5")]) =
      some [("a", Val.vint 5)] ∧
    Val.vstr "5" ≠ Val.vint 5 := by
  constructor
  · have hg : get_data_lines [("a", Val.vstr "5")] 0 =
        [render_withval 0 "a" (Val.vstr "5")] := by
      simp [get_data_lines]
    have h1 : to_yaml [("a", Val.vstr "5")] = "a: 5\n" := by
      unfold to_yaml get_yaml_lines
      rw [hg]
      rfl
    rw [h1]
    have hcont : pm_result 0 [""] [] [""] :=
      ⟨Nat.le_refl _, parse_map_stop 0 [""] (Or.inr rfl)⟩
    obtain ⟨hlen, heqm⟩ := pm_scalar 0 "a" "5" [""] [] [""] (by decide)
      (by decide) hcont
    unfold load_model
    rw [show split_nl "a: 5\n" = ["a: 5", ""] from rfl,
      if_neg (by decide),
      show ("a: 5" : String) = spaces 0 ++ "a" ++ ":" ++ " " ++ "5"
        from rfl,
      heqm]
    rfl
  · exact fun h => Val.noConfusion h

/-- C9 (corrected): for every mapping that is round-trip well-formed
(entries_wf: keys and string leaves are plain printable-ASCII scalars
starting with a letter, free of colon, hash and apostrophe, with no
trailing space, not YAML-reserved words and not numerals; sibling keys
pairwise distinct; integer leaves whose rendered text resolves back to
the same value; non-empty sub-mappings; lists of such scalar items),
serializing with to_yaml and loading the text back yields exactly the
same mapping — key order and nested structure preserved.  The original
claim's only proviso (no empty-sub-mapping edge cases) is insufficient:
a string leaf "5" comes back as the integer 5. -/
theorem claim_C9_roundtrip (d : Dict) (hwf : entries_wf d = true) :
    load_model (to_yaml d) = some d := by
  by_cases hne : d = []
  · subst hne
    rfl
  · exact roundtrip d hwf hne

theorem claim_C9_roundtrip_witness :
    entries_wf [("x", Val.vint 5),
      ("m", Val.vmap [("a", Val.vstr "hi")]),
      ("l", Val.vlist [Val.vint 1, Val.vbool true]),
      ("z", Val.vnull)] = true ∧
    load_model (to_yaml [("x", Val.vint 5),
      ("m", Val.vmap [("a", Val.vstr "hi")]),
      ("l", Val.vlist [Val.vint 1, Val.vbool true]),
      ("z", Val.vnull)]) =
      some [("x", Val.vint 5),
        ("m", Val.vmap [("a", Val.vstr "hi")]),
        ("l", Val.vlist [Val.vint 1, Val.vbool true]),
        ("z", Val.vnull)] := by
  have hwf : entries_wf [("x", Val.vint 5),
      ("m", Val.vmap [("a", Val.vstr "hi")]),
      ("l", Val.vlist [Val.vint 1, Val.vbool true]),
      ("z", Val.vnull)] = true := by
    simp only [entries_wf, val_wf, item_wf]
    decide
  exact ⟨hwf, claim_C9_roundtrip _ hwf⟩

end Yacman2
